import Mathlib

/-!
# Verification of the `data_engine` trading-system crate

A shallow embedding of the aggregation core of the `trading_system` repository
(`src/data_engine/src/`): the candlestick classifier (`candle_type.rs`), the
session resolver (`session_type.rs`), the session aggregator
(`session_data_agg.rs`) and the period aggregator (`week_day_data.rs`).

Modelling conventions:
* Rust `String` values are embedded as `List Char` (`Str`), with
  byte-lexicographic comparison embedded as codepoint-lexicographic comparison
  (the two coincide on UTF-8).
* Rust `f64` fields carry exact decimal constants in all inputs of interest;
  they are embedded as `ℚ`.  Every arithmetic operation and comparison the
  source performs is mirrored on `ℚ`.
* Rust `HashMap`s are embedded as association lists; the source only reads
  them through `get`/`entry`, and every output is sorted by its (unique) key
  before being returned, so the iteration order of the map is immaterial.
* Fallible parsing returns `Option`, mirroring the source's `Option`/`Result`.
-/

set_option maxRecDepth 40000

/-- Rust strings, embedded as lists of characters. -/
abbrev Str := List Char

/-- Byte-lexicographic `≤` on Rust strings (`String::cmp`), as a Bool. -/
def strLe : Str → Str → Bool
  | [], _ => true
  | _ :: _, [] => false
  | x :: xs, y :: ys =>
    if x < y then true
    else if y < x then false
    else strLe xs ys

/-- Byte-lexicographic `<` on Rust strings (`String::cmp`), as a Bool. -/
def strLt : Str → Str → Bool
  | _, [] => false
  | [], _ :: _ => true
  | x :: xs, y :: ys =>
    if x < y then true
    else if y < x then false
    else strLt xs ys

/-! ## `session_type.rs` -/

/-- Market session code (`Session` in `session_type.rs`). -/
inductive Session where
  | AS
  | LN
  | NYAM
  | NYL
  | NYPM
  | Unknown
deriving DecidableEq, Repr

/-- Embeds `Session::as_str`. -/
def Session.as_str : Session → Str
  | .AS => "AS".data
  | .LN => "LN".data
  | .NYAM => "NYAM".data
  | .NYL => "NYL".data
  | .NYPM => "NYPM".data
  | .Unknown => "Unknown".data

/-- Embeds `Session::from_hour`: the fixed hour-range partition. -/
def Session.from_hour (hour : Nat) : Session :=
  if 1 ≤ hour ∧ hour ≤ 7 then .AS
  else if 8 ≤ hour ∧ hour ≤ 14 then .LN
  else if 15 ≤ hour ∧ hour ≤ 18 then .NYAM
  else if 19 ≤ hour ∧ hour ≤ 20 then .NYL
  else if 21 ≤ hour ∧ hour ≤ 23 then .NYPM
  else .Unknown

/-- Rust's `str::split` on a character predicate: `n` separators yield `n+1`
pieces, empty pieces included. -/
def splitOn (p : Char → Bool) : Str → List Str
  | [] => [[]]
  | c :: cs =>
    if p c then [] :: splitOn p cs
    else
      match splitOn p cs with
      | [] => [[c]]
      | piece :: rest => (c :: piece) :: rest

/-- Rust `str::parse::<u32>`: an optional leading `'+'`, then one or more
ASCII digits, rejecting overflow past `u32::MAX`. -/
def parse_u32 (s : Str) : Option Nat :=
  let digits := match s with
    | '+' :: rest => rest
    | _ => s
  if digits ≠ [] ∧ digits.all Char.isDigit then
    let v := digits.foldl (fun acc c => acc * 10 + (c.toNat - 48)) 0
    if v < 4294967296 then some v else none
  else none

/-- Embeds `Session::from_timestamp`: split on `'T'`/`' '`, take the second piece,
take its text before the first `':'`, parse it as `u32`, and map through
`from_hour`; any failure yields `Unknown`. -/
def Session.from_timestamp (ts : Str) : Session :=
  let time_part_opt := (splitOn (fun c => c == 'T' || c == ' ') ts)[1]?
  match time_part_opt with
  | some tp =>
    let hour_str := (splitOn (fun c => c == ':') tp).headD []
    match parse_u32 hour_str with
    | some hour => Session.from_hour hour
    | none => Session.Unknown
  | none => Session.Unknown

/-- Embeds `session_from_timestamp`: the String-returning compatibility wrapper. -/
def session_from_timestamp (ts : Str) : Str :=
  (Session.from_timestamp ts).as_str

/-- Embeds `session_from_timestamp_enum`. -/
def session_from_timestamp_enum (ts : Str) : Session :=
  Session.from_timestamp ts

/-! ## `candle_type.rs` -/

def DEFAULT_DOJI_BODY_RATIO : ℚ := 1/10

def DEFAULT_BODY_WICK_RATIO_LONG : ℚ := 3/2

def DEFAULT_BODY_WICK_RATIO_SHORT : ℚ := 1/2

def DEFAULT_UPPER_VS_LOWER_RATIO : ℚ := 2

def DEFAULT_EPS : ℚ := 1/1000000000

/-- Embeds `pattern_from_ohlc`: the candlestick-shape classifier. -/
def pattern_from_ohlc (o h l c : ℚ)
    (doji_body_ratio body_wick_ratio_long body_wick_ratio_short
     upper_vs_lower_ratio eps : ℚ) : Str :=
  let body := |c - o|
  let max_co := if c > o then c else o
  let min_co := if c < o then c else o
  let upper0 := h - max_co
  let upper := if upper0 < 0 then 0 else upper0
  let lower0 := min_co - l
  let lower := if lower0 < 0 then 0 else lower0
  let rng := max (h - l) 0
  let body_ratio := body / (rng + eps)
  let sum_wicks := upper + lower
  let body_vs_wicks := body / (sum_wicks + eps)
  let close_up : Bool := c > o
  let close_down : Bool := c < o
  let is_doji : Bool := body_ratio ≤ doji_body_ratio
  let is_dominant_body : Bool := body_vs_wicks ≥ body_wick_ratio_long
  let is_wick_dominated : Bool := body_vs_wicks ≤ body_wick_ratio_short
  let long_upper : Bool := (upper ≥ upper_vs_lower_ratio * lower) && (upper > 0)
  let long_lower : Bool := (lower ≥ upper_vs_lower_ratio * upper) && (lower > 0)
  let both_wicks : Bool := (upper > 0) && (lower > 0) && !long_upper && !long_lower
  if is_doji then "Doji/SpinningTop".data
  else if is_dominant_body then
    if close_up then "Bullish Long Body".data
    else if close_down then "Bearish Long Body".data
    else "Neutral Long Body".data
  else if is_wick_dominated then
    if long_upper then "Long Upper Wick".data
    else if long_lower then "Long Lower Wick".data
    else if both_wicks then "Long Both Wicks / SpinningTop".data
    else "Long Wicks (unspecified)".data
  else
    if close_up then "Mild Bullish".data
    else if close_down then "Mild Bearish".data
    else "Neutral".data

/-! ## `data_engine.rs` data model -/

/-- One OHLCV bar (`MarketData`).  The Rust field `open` is a Lean keyword and
is embedded as `open_`. -/
structure MarketData where
  timestamp : Str
  open_ : ℚ
  high : ℚ
  low : ℚ
  close : ℚ
  volume : ℚ

/-! ## Calendar arithmetic and timestamp parsing (`week_day_data.rs`) -/

/-- A parsed calendar date-time (`chrono::NaiveDateTime`; sub-second digits
cannot survive the source's `replace('.', "-")`, so they are not stored). -/
structure NaiveDateTime where
  year : Int
  month : Nat
  day : Nat
  hour : Nat
  minute : Nat
  second : Nat
deriving DecidableEq, Repr

/-- Gregorian leap year. -/
def isLeap (y : Int) : Bool := y % 4 == 0 && (y % 100 != 0 || y % 400 == 0)

/-- Days in a month of a given year. -/
def daysInMonth (y : Int) (m : Nat) : Nat :=
  if m = 2 then (if isLeap y then 29 else 28)
  else if m = 4 ∨ m = 6 ∨ m = 9 ∨ m = 11 then 30
  else 31

/-- Days since 1970-01-01 of a civil date (Hinnant's `days_from_civil`). -/
def days_from_civil (y : Int) (m d : Nat) : Int :=
  let y' := if m ≤ 2 then y - 1 else y
  let era := Int.fdiv y' 400
  let yoe := y' - era * 400
  let mp : Int := ((m : Int) + 9) % 12
  let doy := (153 * mp + 2) / 5 + (d : Int) - 1
  let doe := yoe * 365 + yoe / 4 - yoe / 100 + doy
  era * 146097 + doe - 719468

/-- Civil date from days since 1970-01-01 (Hinnant's `civil_from_days`). -/
def civil_from_days (z0 : Int) : Int × Nat × Nat :=
  let z := z0 + 719468
  let era := Int.fdiv z 146097
  let doe := z - era * 146097
  let yoe := (doe - doe / 1460 + doe / 36524 - doe / 146096) / 365
  let y := yoe + era * 400
  let doy := doe - (365 * yoe + yoe / 4 - yoe / 100)
  let mp := (5 * doy + 2) / 153
  let d := doy - (153 * mp + 2) / 5 + 1
  let m := if mp < 10 then mp + 3 else mp - 9
  (if m ≤ 2 then y + 1 else y, m.toNat, d.toNat)

/-- ISO day-of-week of a day count (1 = Monday .. 7 = Sunday); day 0
(1970-01-01) is a Thursday. -/
def isoDow (days : Int) : Nat := ((days + 3).emod 7).toNat + 1

/-- ISO day-of-week of a date-time (`chrono::Datelike::weekday`). -/
def weekdayNum (ndt : NaiveDateTime) : Nat :=
  isoDow (days_from_civil ndt.year ndt.month ndt.day)

/-- Ordinal day of the year (1-based). -/
def ordinalOfYear (y : Int) (m d : Nat) : Int :=
  days_from_civil y m d - days_from_civil y 1 1 + 1

/-- Number of ISO weeks in a year: 53 iff Jan 1 is a Thursday, or the year is
leap and Jan 1 is a Wednesday; else 52. -/
def iso_weeks_in_year (y : Int) : Nat :=
  let wd := isoDow (days_from_civil y 1 1)
  if wd = 4 ∨ (isLeap y ∧ wd = 3) then 53 else 52

/-- ISO-8601 (week-year, week-number) of a date
(`chrono::Datelike::iso_week`). -/
def isoYearWeekOfDate (y : Int) (m d : Nat) : Int × Nat :=
  let wd := isoDow (days_from_civil y m d)
  let ord := ordinalOfYear y m d
  let w := (ord - (wd : Int) + 10) / 7
  if w < 1 then (y - 1, iso_weeks_in_year (y - 1))
  else if w > (iso_weeks_in_year y : Int) then (y + 1, 1)
  else (y, w.toNat)

/-! ### Decimal formatting helpers (Rust `format!`) -/

def digitChar (n : Nat) : Char := Char.ofNat (48 + n)

def natToCharsAux : Nat → Nat → Str
  | 0, _ => []
  | fuel + 1, n =>
    if n < 10 then [digitChar n]
    else natToCharsAux fuel (n / 10) ++ [digitChar (n % 10)]

/-- Decimal digits of a natural number. -/
def natToChars (n : Nat) : Str := natToCharsAux (n + 1) n

/-- Decimal rendering of an integer (Rust `Display` for integers). -/
def intToChars (n : Int) : Str :=
  if n < 0 then '-' :: natToChars (-n).toNat else natToChars n.toNat

/-- Left-pad with `'0'` to a minimum width (Rust `{:0w}`). -/
def padZeroes (w : Nat) (s : Str) : Str := List.replicate (w - s.length) '0' ++ s

/-- Embeds `{:02}` of a natural number. -/
def pad2 (n : Nat) : Str := padZeroes 2 (natToChars n)

/-- Embeds `ndt.date().format("%Y-%m-%d")`. -/
def formatDate (ndt : NaiveDateTime) : Str :=
  padZeroes 4 (intToChars ndt.year) ++ "-".data ++ pad2 ndt.month
    ++ "-".data ++ pad2 ndt.day

/-! ### `parse_ts_to_naive` -/

/-- Rust `str::trim`. -/
def strTrim (s : Str) : Str :=
  ((s.dropWhile Char.isWhitespace).reverse.dropWhile Char.isWhitespace).reverse

def expectChar (c : Char) : Str → Option Str
  | x :: xs => if x == c then some xs else none
  | [] => none

/-- Greedily take at most `maxw` leading digits (chrono's bounded numeric
fields); fail on zero digits. -/
def parseNum (maxw : Nat) (s : Str) : Option (Nat × Str) :=
  let ds := (s.takeWhile Char.isDigit).take maxw
  if ds.isEmpty then none
  else some (ds.foldl (fun acc c => acc * 10 + (c.toNat - 48)) 0, List.drop ds.length s)

/-- Embeds `%Y-%m-%d`. -/
def parse_date (s : Str) : Option ((Int × Nat × Nat) × Str) := do
  let (y, s1) ← parseNum 4 s
  let s2 ← expectChar '-' s1
  let (m, s3) ← parseNum 2 s2
  let s4 ← expectChar '-' s3
  let (d, s5) ← parseNum 2 s4
  pure (((y : Int), m, d), s5)

/-- Embeds `%H:%M` with optional `:%S`. -/
def parse_time (withSec : Bool) (s : Str) : Option ((Nat × Nat × Nat) × Str) := do
  let (h, s1) ← parseNum 2 s
  let s2 ← expectChar ':' s1
  let (mi, s3) ← parseNum 2 s2
  if withSec then
    let s4 ← expectChar ':' s3
    let (sec, s5) ← parseNum 2 s4
    pure ((h, mi, sec), s5)
  else
    pure ((h, mi, 0), s3)

/-- Range validation performed by `chrono` when assembling a date-time. -/
def mkValid (ymd : Int × Nat × Nat) (hms : Nat × Nat × Nat) : Option NaiveDateTime :=
  let (y, m, d) := ymd
  let (h, mi, sec) := hms
  if 1 ≤ m ∧ m ≤ 12 ∧ 1 ≤ d ∧ d ≤ daysInMonth y m ∧ h ≤ 23 ∧ mi ≤ 59 ∧ sec ≤ 59 then
    some ⟨y, m, d, h, mi, sec⟩
  else none

/-- One fixed-format attempt: date, separator, time (`withSec` selects
`%H:%M:%S` vs `%H:%M`), entire input consumed.  After the source's
`replace('.', "-")` no `.` remains, so `%.f` can only match the empty
fraction and the `%.f` formats accept exactly the same strings as their
fraction-free counterparts. -/
def parse_ymd_time (sep : Char) (withSec : Bool) (s : Str) : Option NaiveDateTime := do
  let (ymd, s1) ← parse_date s
  let s2 ← expectChar sep s1
  let (hms, s3) ← parse_time withSec s2
  if s3 = [] then mkValid ymd hms else none

/-- Embeds `%Y-%m-%d` alone, entire input consumed. -/
def parse_ymd_only (s : Str) : Option NaiveDateTime := do
  let (ymd, s1) ← parse_date s
  if s1 = [] then mkValid ymd (0, 0, 0) else none

/-- Shift a date-time by a number of minutes (for RFC 3339 `naive_utc`). -/
def shiftMinutes (ndt : NaiveDateTime) (delta : Int) : NaiveDateTime :=
  let total := days_from_civil ndt.year ndt.month ndt.day * 1440
    + (ndt.hour : Int) * 60 + (ndt.minute : Int) + delta
  let days := Int.fdiv total 1440
  let rem := (total - days * 1440).toNat
  let (y, m, d) := civil_from_days days
  ⟨y, m, d, rem / 60, rem % 60, ndt.second⟩

/-- Embeds `DateTime::parse_from_rfc3339` followed by `naive_utc`: date, `T`/`t`/
space separator, `%H:%M:%S`, then a mandatory offset (`Z`/`z` or `±HH:MM`),
subtracted to reach UTC. -/
def parse_rfc3339 (s : Str) : Option NaiveDateTime := do
  let (ymd, s1) ← parse_date s
  match s1 with
  | sep :: s2 =>
    if sep == 'T' || sep == 't' || sep == ' ' then do
      let (hms, s3) ← parse_time true s2
      let ndt ← mkValid ymd hms
      match s3 with
      | ['Z'] => pure ndt
      | ['z'] => pure ndt
      | sgn :: rest =>
        if sgn == '+' || sgn == '-' then do
          let (oh, r1) ← parseNum 2 rest
          let r2 ← expectChar ':' r1
          let (om, r3) ← parseNum 2 r2
          if r3 = [] ∧ oh ≤ 23 ∧ om ≤ 59 then
            let off : Int := (oh : Int) * 60 + (om : Int)
            pure (shiftMinutes ndt (if sgn == '+' then -off else off))
          else none
        else none
      | [] => none
    else none
  | [] => none

/-- Embeds `parse_ts_to_naive`: trim, replace `'.'` with `'-'`, try RFC 3339, then
the fixed format list
`%Y-%m-%dT%H:%M:%S%.f`, `%Y-%m-%d %H:%M:%S%.f`, `%Y-%m-%dT%H:%M:%S`,
`%Y-%m-%d %H:%M:%S`, `%Y-%m-%dT%H:%M`, `%Y-%m-%d %H:%M`, `%Y-%m-%d`
(the `%.f` pair collapses onto the fraction-free pair, see above). -/
def parse_ts_to_naive (ts : Str) : Option NaiveDateTime :=
  let s := (strTrim ts).map (fun ch => if ch == '.' then '-' else ch)
  (parse_rfc3339 s).orElse fun _ =>
  (parse_ymd_time 'T' true s).orElse fun _ =>
  (parse_ymd_time ' ' true s).orElse fun _ =>
  (parse_ymd_time 'T' false s).orElse fun _ =>
  (parse_ymd_time ' ' false s).orElse fun _ =>
  parse_ymd_only s

/-! ## Association-list embedding of `HashMap` -/

/-- Embeds `HashMap::get`. -/
def alookup {κ ν : Type} [DecidableEq κ] (k : κ) : List (κ × ν) → Option ν
  | [] => none
  | p :: rest => if p.1 = k then some p.2 else alookup k rest

/-- Apply `f` at key `k` (`HashMap::get_mut`). -/
def aupdate {κ ν : Type} [DecidableEq κ] (k : κ) (f : ν → ν)
    (m : List (κ × ν)) : List (κ × ν) :=
  m.map fun p => if p.1 = k then (p.1, f p.2) else p

/-- The source's pervasive `match map.get_mut(&k) { Some(a) => mutate,
None => insert }` idiom. -/
def upsert {κ ν : Type} [DecidableEq κ] (k : κ) (merge : ν → ν) (init : ν)
    (m : List (κ × ν)) : List (κ × ν) :=
  match alookup k m with
  | some _ => aupdate k merge m
  | none => (k, init) :: m

/-! ## `session_data_agg.rs` -/

/-- A session-level aggregate (`SessionAgg`). -/
structure SessionAgg where
  date : Str
  session : Session
  open_ : ℚ
  high : ℚ
  low : ℚ
  close : ℚ
  volume : ℚ
  high_ts : Str
  low_ts : Str
  pattern : Str

/-- The `and_modify` body of `aggregate_sessions`: running high/low with their
timestamps, unconditional close overwrite, volume accumulation. -/
def sessionMerge (r : MarketData) (agg : SessionAgg) : SessionAgg :=
  let agg := if r.high > agg.high then { agg with high := r.high, high_ts := r.timestamp } else agg
  let agg := if r.low < agg.low then { agg with low := r.low, low_ts := r.timestamp } else agg
  { agg with close := r.close, volume := agg.volume + r.volume }

/-- The `or_insert_with` body of `aggregate_sessions`. -/
def sessionInit (date_part : Str) (session : Session) (r : MarketData) : SessionAgg :=
  ⟨date_part, session, r.open_, r.high, r.low, r.close, r.volume, r.timestamp, r.timestamp, []⟩

/-- The `(date, session)` grouping key of one bar: the text before the first
`'T'` together with the resolved session; `None` when the session is
`Unknown` (the bar is skipped). -/
def sessionKeyOf (r : MarketData) : Option (Str × Session) :=
  let date_part := (splitOn (fun c => c == 'T') r.timestamp).headD []
  let session := session_from_timestamp_enum r.timestamp
  if session = Session.Unknown then none else some (date_part, session)

/-- One loop iteration of `aggregate_sessions`. -/
def sessionStep (m : List ((Str × Session) × SessionAgg)) (r : MarketData) :
    List ((Str × Session) × SessionAgg) :=
  match sessionKeyOf r with
  | none => m
  | some key => upsert key (sessionMerge r) (sessionInit key.1 key.2 r) m

/-- Pattern finalization of one session bucket. -/
def sessionFinalize (v : SessionAgg) : SessionAgg :=
  { v with
    pattern := pattern_from_ohlc v.open_ v.high v.low v.close
      DEFAULT_DOJI_BODY_RATIO DEFAULT_BODY_WICK_RATIO_LONG
      DEFAULT_BODY_WICK_RATIO_SHORT DEFAULT_UPPER_VS_LOWER_RATIO DEFAULT_EPS }

/-- The output ordering of `aggregate_sessions`: by date, then session code. -/
def sessionLe (a b : SessionAgg) : Bool :=
  if strLt a.date b.date then true
  else if strLt b.date a.date then false
  else strLe a.session.as_str b.session.as_str

/-- Embeds `aggregate_sessions`. -/
def aggregate_sessions (data : List MarketData) : List SessionAgg :=
  let aggs := data.foldl sessionStep []
  let out_aggs := aggs.map fun p => sessionFinalize p.2
  out_aggs.insertionSort fun a b => sessionLe a b = true

/-! ## `week_day_data.rs` -/

/-- A period-level aggregate (`PeriodAgg`). -/
structure PeriodAgg where
  date : Str
  open_ : ℚ
  high : ℚ
  low : ℚ
  close : ℚ
  volume : ℚ
  first_ts : Str
  last_ts : Str
  pattern : Str
  members : List Str

/-- The shared `Some(a)` merge body of the daily/weekday/monthly buckets:
running high/low, earliest-timestamp open, latest-timestamp close,
accumulated volume. -/
def periodMerge (r : MarketData) (a : PeriodAgg) : PeriodAgg :=
  let a := if r.high > a.high then { a with high := r.high } else a
  let a := if r.low < a.low then { a with low := r.low } else a
  let a := if strLt r.timestamp a.first_ts then
      { a with first_ts := r.timestamp, open_ := r.open_ } else a
  let a := if strLt a.last_ts r.timestamp then
      { a with last_ts := r.timestamp, close := r.close } else a
  { a with volume := a.volume + r.volume }

/-- The shared `None` insert body: a fresh bucket seeded from one bar. -/
def periodInit (key : Str) (r : MarketData) (members : List Str) : PeriodAgg :=
  ⟨key, r.open_, r.high, r.low, r.close, r.volume, r.timestamp, r.timestamp, [], members⟩

/-- The weekly `Some(a)` merge body: `periodMerge` plus the
`if !a.members.contains(&day_str) { a.members.push(day_str) }` step. -/
def weeklyMerge (r : MarketData) (day_str : Str) (a : PeriodAgg) : PeriodAgg :=
  let a := periodMerge r a
  if day_str ∈ a.members then a else { a with members := a.members ++ [day_str] }

/-- Embeds `iso_year_week` (the local helper of `aggregate_period`). -/
def iso_year_week (ndt : NaiveDateTime) : Int × Nat :=
  isoYearWeekOfDate ndt.year ndt.month ndt.day

/-- Embeds `format!("{:04}-{:02}-W{}", iso_year, owning_month, week_index)`. -/
def formatWeekKey (iso_year : Int) (owning_month : Nat) (week_index : Nat) : Str :=
  padZeroes 4 (intToChars iso_year) ++ "-".data ++ pad2 owning_month
    ++ "-W".data ++ natToChars week_index

/-- The three memo maps driving weekly-bucket key assignment. -/
structure WeekKeyState where
  monthly_iso_week_index : List ((Int × Nat × Nat) × Nat)
  iso_week_assigned_month : List ((Int × Nat) × Nat)
  monthly_week_counter : List ((Int × Nat) × Nat)

/-- Weekly key assignment for one bar: lock the owning month of the ISO week
on first sight (`entry(iso_key).or_insert(record_month)`), then assign the
month-relative week index on first sight
(`entry(idx_key).or_insert_with(next counter)`). -/
def weeklyKeyStep (st : WeekKeyState) (ndt : NaiveDateTime) : Str × WeekKeyState :=
  let yw := iso_year_week ndt
  let iso_key := yw
  let record_month := ndt.month
  let (owning_month, assigned) :=
    match alookup iso_key st.iso_week_assigned_month with
    | some m => (m, st.iso_week_assigned_month)
    | none => (record_month, (iso_key, record_month) :: st.iso_week_assigned_month)
  let idx_key := (yw.1, owning_month, yw.2)
  let (week_index, idx, counter) :=
    match alookup idx_key st.monthly_iso_week_index with
    | some i => (i, st.monthly_iso_week_index, st.monthly_week_counter)
    | none =>
      let counter_key := (yw.1, owning_month)
      let c := (alookup counter_key st.monthly_week_counter).getD 0 + 1
      (c, (idx_key, c) :: st.monthly_iso_week_index,
        upsert counter_key (fun _ => c) c st.monthly_week_counter)
  (formatWeekKey yw.1 owning_month week_index, ⟨idx, assigned, counter⟩)

/-- Embeds `chrono::Weekday` names for Monday..Friday. -/
def weekdayName (wd : Nat) : Str :=
  if wd = 1 then "Mon".data
  else if wd = 2 then "Tue".data
  else if wd = 3 then "Wed".data
  else if wd = 4 then "Thu".data
  else if wd = 5 then "Fri".data
  else []

/-- The whole accumulation state of `aggregate_period`. -/
structure PeriodState where
  daily : List (Str × PeriodAgg)
  weekly : List (Str × PeriodAgg)
  weekday_map : List (Str × PeriodAgg)
  monthly : List (Str × PeriodAgg)
  wk : WeekKeyState

/-- One loop iteration of `aggregate_period`: skip unparsable timestamps,
then update the daily, weekly, weekday (Mon..Fri only) and monthly buckets. -/
def processBar (st : PeriodState) (r : MarketData) : PeriodState :=
  match parse_ts_to_naive r.timestamp with
  | none => st
  | some ndt =>
    let date_str := formatDate ndt
    let daily := upsert date_str (periodMerge r) (periodInit date_str r []) st.daily
    let wkres := weeklyKeyStep st.wk ndt
    let week_key := wkres.1
    let day_str := formatDate ndt
    let weekly := upsert week_key (weeklyMerge r day_str)
      (periodInit week_key r [day_str]) st.weekly
    let wd := weekdayNum ndt
    let weekday_map :=
      if wd ≤ 5 then
        upsert (weekdayName wd) (periodMerge r) (periodInit (weekdayName wd) r [])
          st.weekday_map
      else st.weekday_map
    let month_key := intToChars ndt.year ++ "-".data ++ pad2 ndt.month
    let monthly := upsert month_key (periodMerge r) (periodInit month_key r []) st.monthly
    ⟨daily, weekly, weekday_map, monthly, wkres.2⟩

/-- Pattern finalization and member sorting of one period bucket. -/
def periodFinalize (v : PeriodAgg) : PeriodAgg :=
  { v with
    pattern := pattern_from_ohlc v.open_ v.high v.low v.close
      DEFAULT_DOJI_BODY_RATIO DEFAULT_BODY_WICK_RATIO_LONG
      DEFAULT_BODY_WICK_RATIO_SHORT DEFAULT_UPPER_VS_LOWER_RATIO DEFAULT_EPS,
    members := v.members.insertionSort fun a b => strLe a b = true }

/-- Embeds `wd_ord`, the weekday output ordering helper. -/
def wd_ord (s : Str) : Nat :=
  if s = "Mon".data then 1
  else if s = "Tue".data then 2
  else if s = "Wed".data then 3
  else if s = "Thu".data then 4
  else if s = "Fri".data then 5
  else 99

/-- Weekday output ordering: `wd_ord`, ties by date. -/
def weekdaySortLe (a b : PeriodAgg) : Bool :=
  if wd_ord a.date < wd_ord b.date then true
  else if wd_ord b.date < wd_ord a.date then false
  else strLe a.date b.date

/-- The stable sort by timestamp string (`refs.sort_by(|a, b|
a.timestamp.cmp(&b.timestamp))`). -/
def sortByTimestamp (data : List MarketData) : List MarketData :=
  data.insertionSort fun a b => strLe a.timestamp b.timestamp = true

/-- The empty initial state of `aggregate_period`. -/
def initPeriodState : PeriodState := ⟨[], [], [], [], ⟨[], [], []⟩⟩

/-- Embeds `aggregate_period`: sort by timestamp string, fold all bars through
`processBar`, then finalize every bucket and sort each output family. -/
def aggregate_period (data : List MarketData) :
    List PeriodAgg × List PeriodAgg × List PeriodAgg × List PeriodAgg :=
  let refs := sortByTimestamp data
  let st := refs.foldl processBar initPeriodState
  let daily_vec := (st.daily.map fun p => periodFinalize p.2).insertionSort
    fun a b => strLe a.date b.date = true
  let weekly_vec := (st.weekly.map fun p => periodFinalize p.2).insertionSort
    fun a b => strLe a.date b.date = true
  let weekday_vec := (st.weekday_map.map fun p => periodFinalize p.2).insertionSort
    fun a b => weekdaySortLe a b = true
  let monthly_vec := (st.monthly.map fun p => periodFinalize p.2).insertionSort
    fun a b => strLe a.date b.date = true
  (daily_vec, weekly_vec, weekday_vec, monthly_vec)

/-! ## Generic characterization of the keyed upsert folds

Every bucket family of the source is one instance of the same idiom: compute
an optional key for the incoming bar (possibly updating some key-assignment
state), then `upsert` the bucket map at that key with a per-bar merge.  The
lemmas below characterize the final map entry at each key by the list of bars
that contributed to it. -/

section KeyedFold

variable {κ ν σ : Type} [DecidableEq κ]
/-- One step of a keyed fold: compute the key (updating key state `σ`), then
upsert the bucket map. -/
def keyedStep (keyf : σ → MarketData → Option κ × σ)
    (mergef : MarketData → ν → ν) (newf : κ → MarketData → ν) :
    σ × List (κ × ν) → MarketData → σ × List (κ × ν) :=
  fun sm r =>
    let ks := keyf sm.1 r
    match ks.1 with
    | none => (ks.2, sm.2)
    | some k => (ks.2, upsert k (mergef r) (newf k r) sm.2)

/-- The bars of `l` that are assigned key `k` by `keyf` starting from key
state `s`. -/
def contribKeyed (keyf : σ → MarketData → Option κ × σ) :
    σ → List MarketData → κ → List MarketData
  | _, [], _ => []
  | s, r :: rest, k =>
    let ks := keyf s r
    (if ks.1 = some k then [r] else []) ++ contribKeyed keyf ks.2 rest k

/-- The key assigned to each bar of `l`, in processing order. -/
def keyTrace (keyf : σ → MarketData → Option κ × σ) :
    σ → List MarketData → List (Option κ × MarketData)
  | _, [] => []
  | s, r :: rest =>
    let ks := keyf s r
    (ks.1, r) :: keyTrace keyf ks.2 rest

end KeyedFold
section KeyedFold

variable {κ ν σ : Type} [DecidableEq κ]
/-- The bucket maps never hold two entries with the same key. -/
def KeysUnique (m : List (κ × ν)) : Prop := (m.map (·.1)).Nodup

end KeyedFold
/-! ## The five bucket families as keyed folds -/

/-- The stateless key function of the sessions fold. -/
def sessKeyf : Unit → MarketData → Option (Str × Session) × Unit :=
  fun u r => (sessionKeyOf r, u)

def sessNew : Str × Session → MarketData → SessionAgg :=
  fun k r => sessionInit k.1 k.2 r

/-- Daily bucket key of one bar. -/
def dailyKeyOf (r : MarketData) : Option Str :=
  (parse_ts_to_naive r.timestamp).map formatDate

def dailyKeyf : Unit → MarketData → Option Str × Unit := fun u r => (dailyKeyOf r, u)

/-- The shared fresh-bucket seeding of the daily/weekday/monthly families. -/
def periodNew : Str → MarketData → PeriodAgg := fun k r => periodInit k r []

/-- Weekday bucket key of one bar (Mon..Fri only). -/
def weekdayKeyOf (r : MarketData) : Option Str :=
  match parse_ts_to_naive r.timestamp with
  | none => none
  | some ndt => if weekdayNum ndt ≤ 5 then some (weekdayName (weekdayNum ndt)) else none

def weekdayKeyf : Unit → MarketData → Option Str × Unit := fun u r => (weekdayKeyOf r, u)

/-- Monthly bucket key of one bar. -/
def monthlyKeyOf (r : MarketData) : Option Str :=
  (parse_ts_to_naive r.timestamp).map fun ndt =>
    intToChars ndt.year ++ "-".data ++ pad2 ndt.month

def monthlyKeyf : Unit → MarketData → Option Str × Unit := fun u r => (monthlyKeyOf r, u)

/-- Weekly key assignment as a stateful key function over `WeekKeyState`. -/
def weeklyKeyf : WeekKeyState → MarketData → Option Str × WeekKeyState := fun s r =>
  match parse_ts_to_naive r.timestamp with
  | none => (none, s)
  | some ndt =>
    let ks := weeklyKeyStep s ndt
    (some ks.1, ks.2)

/-- The `day_str` a bar contributes to its weekly bucket's member list. -/
def dayStrOf (r : MarketData) : Str :=
  match parse_ts_to_naive r.timestamp with
  | some ndt => formatDate ndt
  | none => []

def weeklyMergeOf (r : MarketData) : PeriodAgg → PeriodAgg := weeklyMerge r (dayStrOf r)

def weeklyNew : Str → MarketData → PeriodAgg := fun k r => periodInit k r [dayStrOf r]

/-! ## Maxima and minima of contributor lists -/

/-- The maximum of a list of rationals (`none` on the empty list). -/
def listMax : List ℚ → Option ℚ
  | [] => none
  | x :: xs => some (xs.foldl max x)

/-- The minimum of a list of rationals (`none` on the empty list). -/
def listMin : List ℚ → Option ℚ
  | [] => none
  | x :: xs => some (xs.foldl min x)

/-- The bars of `data` grouped into the session bucket at `key`. -/
def sessionContributors (data : List MarketData) (key : Str × Session) :
    List MarketData :=
  data.filter fun r => decide (sessionKeyOf r = some key)

/-- The bars of `data` grouped by a stateless period key into bucket `k`
(processing order: sorted by timestamp string). -/
def periodContributors (keyOf : MarketData → Option Str) (data : List MarketData)
    (k : Str) : List MarketData :=
  (sortByTimestamp data).filter fun r => decide (keyOf r = some k)

def initWeekKeyState : WeekKeyState := ⟨[], [], []⟩

/-- The bars of `data` assigned to weekly bucket `k` by the stateful weekly
key assignment (processing order: sorted by timestamp string). -/
def weeklyContributors (data : List MarketData) (k : Str) : List MarketData :=
  contribKeyed weeklyKeyf initWeekKeyState (sortByTimestamp data) k

/-! ## Concrete inputs used by counterexamples and witnesses -/

def c4bar1 : MarketData := ⟨"2023-03-27T09:00:00".data, 1, 2, 1, 2, 1⟩

def c4bar2 : MarketData := ⟨"2023-03-27T10:00:00".data, 3, 4, 3, 4, 1⟩

def c5bar1 : MarketData := ⟨"2023-03-27T09:00:00".data, 1, 2, 1, 2, 1⟩

def c5bar2 : MarketData := ⟨"2023.03.27 10:00:00".data, 3, 4, 3, 4, 1⟩

def satBar : MarketData := ⟨"2023-04-01T10:00:00".data, 10, 12, 9, 11, 1⟩

def w9bar : MarketData := ⟨"2023-03-27T10:00:00".data, 1, 2, 0, 1, 1⟩

/-- The member-date collection of a contributor list: each contributor's
`day_str` pushed in order if not already present (the weekly buckets'
`members.contains`/`push` idiom). -/
def membersOf (bars : List MarketData) : List Str :=
  bars.foldl (fun ms r => if dayStrOf r ∈ ms then ms else ms ++ [dayStrOf r]) []

/-! ## Weekly month attribution (C1) -/

/-- The ISO (week-year, week-number) a bar resolves to, if it parses. -/
def isoOf (r : MarketData) : Option (Int × Nat) :=
  (parse_ts_to_naive r.timestamp).map iso_year_week

/-- The calendar month of a bar's parsed date, if it parses. -/
def monthOf (r : MarketData) : Option Nat :=
  (parse_ts_to_naive r.timestamp).map (·.month)

/-- The weekly key state has locked ISO week `(y, w)` to owning month `m`
and month-relative index `n`. -/
def wkLocked (y : Int) (w m n : Nat) (st : WeekKeyState) : Prop :=
  alookup (y, w) st.iso_week_assigned_month = some m ∧
  alookup (y, m, w) st.monthly_iso_week_index = some n

/-- Invariant: a month-relative week index exists only for ISO weeks whose
owning month has already been assigned. -/
def wkInv (st : WeekKeyState) : Prop :=
  ∀ (y : Int) (w : Nat), alookup (y, w) st.iso_week_assigned_month = none →
    ∀ m : Nat, alookup (y, m, w) st.monthly_iso_week_index = none

def w1bar1 : MarketData := ⟨"2023-03-31T10:00:00".data, 1, 2, 1, 2, 1⟩

def w1bar2 : MarketData := ⟨"2023-04-01T10:00:00".data, 3, 4, 3, 4, 1⟩

/-! ## Lemmas and claim theorems -/

section KeyedFold

variable {κ ν σ : Type} [DecidableEq κ]
theorem alookup_cons {k k' : κ} {v : ν} {m : List (κ × ν)} :
    alookup k ((k', v) :: m) = if k' = k then some v else alookup k m := rfl

theorem alookup_aupdate_self (k : κ) (f : ν → ν) (m : List (κ × ν)) :
    alookup k (aupdate k f m) = (alookup k m).map f := by
  induction m with
  | nil => rfl
  | cons p rest ih =>
    by_cases h : p.1 = k
    · simp [aupdate, alookup, h]
    · simpa [aupdate, alookup, h] using ih

theorem alookup_aupdate_ne {k k' : κ} (h : k' ≠ k) (f : ν → ν) (m : List (κ × ν)) :
    alookup k (aupdate k' f m) = alookup k m := by
  induction m with
  | nil => rfl
  | cons p rest ih =>
    by_cases hp : p.1 = k
    · have : ¬ p.1 = k' := fun hh => h (hh ▸ hp)
      simp [aupdate, alookup, hp, this, Ne.symm h]
    · by_cases hp' : p.1 = k'
      · simpa [aupdate, alookup, hp', h, hp] using ih
      · simpa [aupdate, alookup, hp', hp] using ih

theorem alookup_upsert_self (k : κ) (mg : ν → ν) (init : ν) (m : List (κ × ν)) :
    alookup k (upsert k mg init m)
      = some (match alookup k m with | some a => mg a | none => init) := by
  unfold upsert
  cases h : alookup k m with
  | none => simp [alookup_cons]
  | some a => simp [alookup_aupdate_self, h]

theorem alookup_upsert_ne {k k' : κ} (h : k' ≠ k) (mg : ν → ν) (init : ν)
    (m : List (κ × ν)) :
    alookup k (upsert k' mg init m) = alookup k m := by
  unfold upsert
  cases hk' : alookup k' m with
  | none => simp [alookup_cons, h]
  | some a => simp [alookup_aupdate_ne h]

/-- Characterization of a keyed fold: the final entry at key `k` is the
initial entry (or the fresh bucket seeded by the first contributor) merged
with every later contributor, in processing order. -/
theorem keyedFold_alookup (keyf : σ → MarketData → Option κ × σ)
    (mergef : MarketData → ν → ν) (newf : κ → MarketData → ν) :
    ∀ (l : List MarketData) (s : σ) (m : List (κ × ν)) (k : κ),
      alookup k (l.foldl (keyedStep keyf mergef newf) (s, m)).2
        = match alookup k m with
          | some a => some ((contribKeyed keyf s l k).foldl (fun v r => mergef r v) a)
          | none =>
            match contribKeyed keyf s l k with
            | [] => none
            | c :: cs => some (cs.foldl (fun v r => mergef r v) (newf k c)) := by
  intro l
  induction l with
  | nil =>
    intro s m k
    simp only [List.foldl_nil, contribKeyed]
    cases alookup k m <;> rfl
  | cons r rest ih =>
    intro s m k
    simp only [List.foldl_cons, contribKeyed, keyedStep]
    cases hko : (keyf s r).1 with
    | none =>
      have hne : ¬ (none : Option κ) = some k := by simp
      simp only [hko, hne, if_false, List.nil_append]
      exact ih (keyf s r).2 m k
    | some k' =>
      by_cases hkk : k' = k
      · subst hkk
        simp only [hko, if_pos rfl, List.singleton_append]
        have := ih (keyf s r).2 (upsert k' (mergef r) (newf k' r) m) k'
        rw [this, alookup_upsert_self]
        cases halm : alookup k' m <;> simp
      · have hne : ¬ (some k' : Option κ) = some k := by simpa using hkk
        simp only [hko, hne, if_false, List.nil_append]
        have := ih (keyf s r).2 (upsert k' (mergef r) (newf k' r) m) k
        rw [this, alookup_upsert_ne hkk]

/-- Projected characterization: any field abstraction that commutes with the
merge and init bodies is the fold of its combine function over the
contributors. -/
theorem foldl_merge_proj {A : Type} (mergef : MarketData → ν → ν)
    (P : ν → A) (g : A → MarketData → A)
    (hmerge : ∀ r a, P (mergef r a) = g (P a) r) :
    ∀ (cs : List MarketData) (v : ν),
      P (cs.foldl (fun v r => mergef r v) v) = cs.foldl g (P v) := by
  intro cs
  induction cs with
  | nil => intro v; rfl
  | cons c cs ih => intro v; simp only [List.foldl_cons, ih, hmerge]

/-- Contributors of a stateless key function are just a filter. -/
theorem contribKeyed_stateless (kf : MarketData → Option κ) :
    ∀ (l : List MarketData) (s : Unit) (k : κ),
      contribKeyed (fun s r => (kf r, s)) s l k
        = l.filter fun r => decide (kf r = some k) := by
  intro l
  induction l with
  | nil => intro s k; rfl
  | cons r rest ih =>
    intro s k
    simp only [contribKeyed, List.filter_cons]
    by_cases h : kf r = some k
    · simp [h, ih]
    · simp [h, ih]

/-- Contributors are the bars of the key trace carrying key `k`. -/
theorem contribKeyed_eq_keyTrace (keyf : σ → MarketData → Option κ × σ) :
    ∀ (l : List MarketData) (s : σ) (k : κ),
      contribKeyed keyf s l k
        = ((keyTrace keyf s l).filter fun p => decide (p.1 = some k)).map (·.2) := by
  intro l
  induction l with
  | nil => intro s k; rfl
  | cons r rest ih =>
    intro s k
    simp only [contribKeyed, keyTrace, List.filter_cons]
    by_cases h : (keyf s r).1 = some k
    · simp [h, ih]
    · simp [h, ih]

end KeyedFold
section KeyedFold

variable {κ ν σ : Type} [DecidableEq κ]
theorem alookup_eq_none_iff {k : κ} {m : List (κ × ν)} :
    alookup k m = none ↔ ∀ p ∈ m, p.1 ≠ k := by
  induction m with
  | nil => simp [alookup]
  | cons p rest ih =>
    by_cases h : p.1 = k
    · simp [alookup, h]
    · simp [alookup, h, ih]

theorem mem_of_alookup {k : κ} {v : ν} {m : List (κ × ν)} :
    alookup k m = some v → (k, v) ∈ m := by
  induction m with
  | nil => simp [alookup]
  | cons p rest ih =>
    obtain ⟨pk, pv⟩ := p
    by_cases h : pk = k
    · subst h
      intro hv
      simp only [alookup, if_pos rfl] at hv
      obtain rfl := Option.some.inj hv
      exact List.mem_cons_self _ _
    · intro hv
      simp only [alookup, h, if_false] at hv
      exact List.mem_cons_of_mem _ (ih hv)

theorem alookup_of_mem {k : κ} {v : ν} {m : List (κ × ν)}
    (hu : KeysUnique m) (hm : (k, v) ∈ m) : alookup k m = some v := by
  induction m with
  | nil => cases hm
  | cons p rest ih =>
    simp only [KeysUnique, List.map_cons, List.nodup_cons] at hu
    rcases List.mem_cons.1 hm with h | h
    · subst h
      simp [alookup]
    · have hk : p.1 ≠ k := by
        intro hpk
        have hmem : k ∈ rest.map (·.1) := List.mem_map.2 ⟨(k, v), h, rfl⟩
        rw [← hpk] at hmem
        exact hu.1 hmem
      simp [alookup, hk, ih hu.2 h]

theorem aupdate_keys (k : κ) (f : ν → ν) (m : List (κ × ν)) :
    (aupdate k f m).map (·.1) = m.map (·.1) := by
  unfold aupdate
  rw [List.map_map]
  apply List.map_congr_left
  intro p hp
  by_cases h : p.1 = k <;> simp [h]

theorem keysUnique_aupdate {k : κ} {f : ν → ν} {m : List (κ × ν)}
    (hu : KeysUnique m) : KeysUnique (aupdate k f m) := by
  unfold KeysUnique
  rw [aupdate_keys]
  exact hu

theorem keysUnique_upsert {k : κ} {mg : ν → ν} {init : ν} {m : List (κ × ν)}
    (hu : KeysUnique m) : KeysUnique (upsert k mg init m) := by
  unfold upsert
  cases h : alookup k m with
  | some a => exact keysUnique_aupdate hu
  | none =>
    have hk : k ∉ m.map (·.1) := by
      intro hmem
      obtain ⟨p, hp, hpk⟩ := List.mem_map.1 hmem
      exact (alookup_eq_none_iff.1 h p hp) hpk
    exact List.nodup_cons.2 ⟨hk, hu⟩

theorem keysUnique_keyedFold (keyf : σ → MarketData → Option κ × σ)
    (mergef : MarketData → ν → ν) (newf : κ → MarketData → ν) :
    ∀ (l : List MarketData) (s : σ) (m : List (κ × ν)), KeysUnique m →
      KeysUnique (l.foldl (keyedStep keyf mergef newf) (s, m)).2 := by
  intro l
  induction l with
  | nil => intro s m hu; exact hu
  | cons r rest ih =>
    intro s m hu
    simp only [List.foldl_cons, keyedStep]
    cases hko : (keyf s r).1 with
    | none => exact ih _ _ hu
    | some k => exact ih _ _ (keysUnique_upsert hu)

/-- Every entry of a bucket map built from the empty map is the seed bucket of
its first contributor merged with all its later contributors. -/
theorem keyedFold_mem_char (keyf : σ → MarketData → Option κ × σ)
    (mergef : MarketData → ν → ν) (newf : κ → MarketData → ν)
    (l : List MarketData) (s : σ) (p : κ × ν)
    (hpm : p ∈ (l.foldl (keyedStep keyf mergef newf) (s, [])).2) :
    ∃ c cs, contribKeyed keyf s l p.1 = c :: cs ∧
      p.2 = cs.foldl (fun v r => mergef r v) (newf p.1 c) := by
  have hu : KeysUnique (l.foldl (keyedStep keyf mergef newf) (s, ([] : List (κ × ν)))).2 :=
    keysUnique_keyedFold keyf mergef newf l s [] (by simp [KeysUnique])
  have hlk := alookup_of_mem hu (by simpa using hpm)
  rw [keyedFold_alookup keyf mergef newf l s [] p.1] at hlk
  simp only [alookup] at hlk
  cases hc : contribKeyed keyf s l p.1 with
  | nil => rw [hc] at hlk; cases hlk
  | cons c cs =>
    rw [hc] at hlk
    exact ⟨c, cs, rfl, (Option.some.inj hlk).symm⟩

/-- Conversely, a bar that was assigned key `k` guarantees a bucket at `k`. -/
theorem keyedFold_exists_of_contrib (keyf : σ → MarketData → Option κ × σ)
    (mergef : MarketData → ν → ν) (newf : κ → MarketData → ν)
    (l : List MarketData) (s : σ) (k : κ)
    (hne : contribKeyed keyf s l k ≠ []) :
    ∃ v, (k, v) ∈ (l.foldl (keyedStep keyf mergef newf) (s, [])).2 := by
  have := keyedFold_alookup keyf mergef newf l s [] k
  simp only [alookup] at this
  cases hc : contribKeyed keyf s l k with
  | nil => exact absurd hc hne
  | cons c cs =>
    rw [hc] at this
    exact ⟨_, mem_of_alookup this⟩

end KeyedFold
theorem sessionStep_eq (m : List ((Str × Session) × SessionAgg)) (r : MarketData) :
    sessionStep m r = (keyedStep sessKeyf sessionMerge sessNew ((), m) r).2 := by
  unfold sessionStep keyedStep sessKeyf sessNew
  cases sessionKeyOf r <;> rfl

theorem foldl_sessionStep (l : List MarketData) :
    ∀ m, l.foldl sessionStep m
      = (l.foldl (keyedStep sessKeyf sessionMerge sessNew) ((), m)).2 := by
  induction l with
  | nil => intro m; rfl
  | cons r rest ih =>
    intro m
    simp only [List.foldl_cons, sessionStep_eq m r]
    rw [ih]

theorem processBar_daily (st : PeriodState) (r : MarketData) :
    (processBar st r).daily
      = (keyedStep dailyKeyf periodMerge periodNew ((), st.daily) r).2 := by
  unfold processBar keyedStep dailyKeyf dailyKeyOf periodNew
  cases parse_ts_to_naive r.timestamp <;> rfl

theorem foldl_processBar_daily (l : List MarketData) :
    ∀ st : PeriodState, (l.foldl processBar st).daily
      = (l.foldl (keyedStep dailyKeyf periodMerge periodNew) ((), st.daily)).2 := by
  induction l with
  | nil => intro st; rfl
  | cons r rest ih =>
    intro st
    simp only [List.foldl_cons]
    rw [ih, processBar_daily]

theorem processBar_weekday (st : PeriodState) (r : MarketData) :
    (processBar st r).weekday_map
      = (keyedStep weekdayKeyf periodMerge periodNew ((), st.weekday_map) r).2 := by
  unfold processBar keyedStep weekdayKeyf weekdayKeyOf periodNew
  cases parse_ts_to_naive r.timestamp with
  | none => rfl
  | some ndt =>
    by_cases h : weekdayNum ndt ≤ 5 <;> simp [h]

theorem foldl_processBar_weekday (l : List MarketData) :
    ∀ st : PeriodState, (l.foldl processBar st).weekday_map
      = (l.foldl (keyedStep weekdayKeyf periodMerge periodNew) ((), st.weekday_map)).2 := by
  induction l with
  | nil => intro st; rfl
  | cons r rest ih =>
    intro st
    simp only [List.foldl_cons]
    rw [ih, processBar_weekday]

theorem processBar_monthly (st : PeriodState) (r : MarketData) :
    (processBar st r).monthly
      = (keyedStep monthlyKeyf periodMerge periodNew ((), st.monthly) r).2 := by
  unfold processBar keyedStep monthlyKeyf monthlyKeyOf periodNew
  cases parse_ts_to_naive r.timestamp <;> rfl

theorem foldl_processBar_monthly (l : List MarketData) :
    ∀ st : PeriodState, (l.foldl processBar st).monthly
      = (l.foldl (keyedStep monthlyKeyf periodMerge periodNew) ((), st.monthly)).2 := by
  induction l with
  | nil => intro st; rfl
  | cons r rest ih =>
    intro st
    simp only [List.foldl_cons]
    rw [ih, processBar_monthly]

theorem processBar_weekly (st : PeriodState) (r : MarketData) :
    ((processBar st r).wk, (processBar st r).weekly)
      = keyedStep weeklyKeyf weeklyMergeOf weeklyNew (st.wk, st.weekly) r := by
  unfold processBar keyedStep weeklyKeyf weeklyMergeOf weeklyNew dayStrOf
  cases parse_ts_to_naive r.timestamp <;> rfl

theorem foldl_processBar_weekly (l : List MarketData) :
    ∀ st : PeriodState, ((l.foldl processBar st).wk, (l.foldl processBar st).weekly)
      = l.foldl (keyedStep weeklyKeyf weeklyMergeOf weeklyNew) (st.wk, st.weekly) := by
  induction l with
  | nil => intro st; rfl
  | cons r rest ih =>
    intro st
    simp only [List.foldl_cons]
    rw [ih, processBar_weekly]

/-! ## Field behaviour of the merge bodies -/

theorem periodMerge_high (r : MarketData) (a : PeriodAgg) :
    (periodMerge r a).high = if r.high > a.high then r.high else a.high := by
  unfold periodMerge
  by_cases h1 : r.high > a.high <;> by_cases h2 : r.low < a.low <;>
    by_cases h3 : strLt r.timestamp a.first_ts = true <;>
    by_cases h4 : strLt a.last_ts r.timestamp = true <;>
    simp [h1, h2, h3, h4]

theorem periodMerge_low (r : MarketData) (a : PeriodAgg) :
    (periodMerge r a).low = if r.low < a.low then r.low else a.low := by
  unfold periodMerge
  by_cases h1 : r.high > a.high <;> by_cases h2 : r.low < a.low <;>
    by_cases h3 : strLt r.timestamp a.first_ts = true <;>
    by_cases h4 : strLt a.last_ts r.timestamp = true <;>
    simp [h1, h2, h3, h4]

theorem periodMerge_date (r : MarketData) (a : PeriodAgg) :
    (periodMerge r a).date = a.date := by
  unfold periodMerge
  by_cases h1 : r.high > a.high <;> by_cases h2 : r.low < a.low <;>
    by_cases h3 : strLt r.timestamp a.first_ts = true <;>
    by_cases h4 : strLt a.last_ts r.timestamp = true <;>
    simp [h1, h2, h3, h4]

theorem periodMerge_members (r : MarketData) (a : PeriodAgg) :
    (periodMerge r a).members = a.members := by
  unfold periodMerge
  by_cases h1 : r.high > a.high <;> by_cases h2 : r.low < a.low <;>
    by_cases h3 : strLt r.timestamp a.first_ts = true <;>
    by_cases h4 : strLt a.last_ts r.timestamp = true <;>
    simp [h1, h2, h3, h4]

theorem weeklyMerge_high (r : MarketData) (d : Str) (a : PeriodAgg) :
    (weeklyMerge r d a).high = if r.high > a.high then r.high else a.high := by
  unfold weeklyMerge
  by_cases h : d ∈ (periodMerge r a).members <;> simp [h, periodMerge_high]

theorem weeklyMerge_low (r : MarketData) (d : Str) (a : PeriodAgg) :
    (weeklyMerge r d a).low = if r.low < a.low then r.low else a.low := by
  unfold weeklyMerge
  by_cases h : d ∈ (periodMerge r a).members <;> simp [h, periodMerge_low]

theorem weeklyMerge_date (r : MarketData) (d : Str) (a : PeriodAgg) :
    (weeklyMerge r d a).date = a.date := by
  unfold weeklyMerge
  by_cases h : d ∈ (periodMerge r a).members <;> simp [h, periodMerge_date]

theorem weeklyMerge_members (r : MarketData) (d : Str) (a : PeriodAgg) :
    (weeklyMerge r d a).members
      = if d ∈ a.members then a.members else a.members ++ [d] := by
  unfold weeklyMerge
  by_cases h : d ∈ (periodMerge r a).members <;>
    rw [periodMerge_members] at h <;> simp [h, periodMerge_members]

theorem sessionMerge_high (r : MarketData) (a : SessionAgg) :
    (sessionMerge r a).high = if r.high > a.high then r.high else a.high := by
  unfold sessionMerge
  by_cases h1 : r.high > a.high <;> by_cases h2 : r.low < a.low <;> simp [h1, h2]

theorem sessionMerge_low (r : MarketData) (a : SessionAgg) :
    (sessionMerge r a).low = if r.low < a.low then r.low else a.low := by
  unfold sessionMerge
  by_cases h1 : r.high > a.high <;> by_cases h2 : r.low < a.low <;> simp [h1, h2]

theorem sessionMerge_date (r : MarketData) (a : SessionAgg) :
    (sessionMerge r a).date = a.date := by
  unfold sessionMerge
  by_cases h1 : r.high > a.high <;> by_cases h2 : r.low < a.low <;> simp [h1, h2]

theorem sessionMerge_session (r : MarketData) (a : SessionAgg) :
    (sessionMerge r a).session = a.session := by
  unfold sessionMerge
  by_cases h1 : r.high > a.high <;> by_cases h2 : r.low < a.low <;> simp [h1, h2]

theorem if_gt_eq_max (x b : ℚ) : (if b > x then b else x) = max x b := by
  rcases le_or_lt b x with h | h
  · rw [if_neg (not_lt.2 h), max_eq_left h]
  · rw [if_pos h, max_eq_right h.le]

theorem if_lt_eq_min (x b : ℚ) : (if b < x then b else x) = min x b := by
  rcases le_or_lt x b with h | h
  · rw [if_neg (not_lt.2 h), min_eq_left h]
  · rw [if_pos h, min_eq_right h.le]

theorem foldl_high_eq_max (cs : List MarketData) :
    ∀ x : ℚ, cs.foldl (fun v r => if r.high > v then r.high else v) x
      = (cs.map (·.high)).foldl max x := by
  induction cs with
  | nil => intro x; rfl
  | cons c cs ih =>
    intro x
    simp only [List.foldl_cons, List.map_cons]
    rw [if_gt_eq_max]
    exact ih _

theorem foldl_low_eq_min (cs : List MarketData) :
    ∀ x : ℚ, cs.foldl (fun v r => if r.low < v then r.low else v) x
      = (cs.map (·.low)).foldl min x := by
  induction cs with
  | nil => intro x; rfl
  | cons c cs ih =>
    intro x
    simp only [List.foldl_cons, List.map_cons]
    rw [if_lt_eq_min]
    exact ih _

/-! ## Dissecting output buckets into their contributors -/

theorem foldl_const {α β : Type} (cs : List α) (k : β) :
    cs.foldl (fun A _ => A) k = k := by
  induction cs generalizing k with
  | nil => rfl
  | cons c cs ih => exact ih k

theorem contrib_sessKeyf (l : List MarketData) (k : Str × Session) :
    contribKeyed sessKeyf () l k
      = l.filter fun r => decide (sessionKeyOf r = some k) :=
  contribKeyed_stateless sessionKeyOf l () k

theorem session_bucket_dissect {data : List MarketData} {a : SessionAgg}
    (ha : a ∈ aggregate_sessions data) :
    ∃ c cs, sessionContributors data (a.date, a.session) = c :: cs ∧
      a = sessionFinalize (cs.foldl (fun v r => sessionMerge r v)
            (sessNew (a.date, a.session) c)) := by
  unfold aggregate_sessions at ha
  have hmem := (List.perm_insertionSort (fun a b : SessionAgg => sessionLe a b = true) _).subset ha
  obtain ⟨p, hp, rfl⟩ := List.mem_map.1 hmem
  rw [foldl_sessionStep] at hp
  obtain ⟨c, cs, hcon, hval⟩ := keyedFold_mem_char sessKeyf sessionMerge sessNew data () p hp
  have hkey : ((sessionFinalize p.2).date, (sessionFinalize p.2).session) = p.1 := by
    show (p.2.date, p.2.session) = p.1
    rw [hval, foldl_merge_proj sessionMerge (fun v => (v.date, v.session)) (fun A r => A)
      (fun r v => by simp only [sessionMerge_date, sessionMerge_session]), foldl_const]
    rfl
  rw [show sessionContributors data ((sessionFinalize p.2).date, (sessionFinalize p.2).session)
      = contribKeyed sessKeyf () data p.1 by
    rw [hkey]; unfold sessionContributors; rw [← contrib_sessKeyf]]
  exact ⟨c, cs, hcon, by rw [hkey, hval]⟩

theorem period_bucket_dissect {σ : Type} (keyf : σ → MarketData → Option Str × σ)
    (mergef : MarketData → PeriodAgg → PeriodAgg) (newf : Str → MarketData → PeriodAgg)
    (hmd : ∀ r v, (mergef r v).date = v.date)
    (hnd : ∀ k r, (newf k r).date = k)
    (le : PeriodAgg → PeriodAgg → Prop) [DecidableRel le]
    (l : List MarketData) (s : σ) {a : PeriodAgg}
    (ha : a ∈ (((l.foldl (keyedStep keyf mergef newf) (s, [])).2.map
        fun p => periodFinalize p.2).insertionSort le)) :
    ∃ c cs, contribKeyed keyf s l a.date = c :: cs ∧
      a = periodFinalize (cs.foldl (fun v r => mergef r v) (newf a.date c)) := by
  have hmem := (List.perm_insertionSort le _).subset ha
  obtain ⟨p, hp, rfl⟩ := List.mem_map.1 hmem
  obtain ⟨c, cs, hcon, hval⟩ := keyedFold_mem_char keyf mergef newf l s p hp
  have hdate : (periodFinalize p.2).date = p.1 := by
    show p.2.date = p.1
    rw [hval, foldl_merge_proj mergef (·.date) (fun A r => A) (fun r v => hmd r v),
      foldl_const, hnd]
  rw [hdate]
  exact ⟨c, cs, hcon, by rw [hval]⟩

theorem daily_bucket_dissect {data : List MarketData} {a : PeriodAgg}
    (ha : a ∈ (aggregate_period data).1) :
    ∃ c cs, periodContributors dailyKeyOf data a.date = c :: cs ∧
      a = periodFinalize (cs.foldl (fun v r => periodMerge r v) (periodNew a.date c)) := by
  have ha' : a ∈ ((((sortByTimestamp data).foldl
      (keyedStep dailyKeyf periodMerge periodNew) ((), [])).2.map
      fun p => periodFinalize p.2).insertionSort
      fun a b : PeriodAgg => strLe a.date b.date = true) := by
    have : (aggregate_period data).1
        = ((((sortByTimestamp data).foldl processBar initPeriodState).daily.map
          fun p => periodFinalize p.2).insertionSort
          fun a b : PeriodAgg => strLe a.date b.date = true) := rfl
    rw [this, foldl_processBar_daily] at ha
    exact ha
  obtain ⟨c, cs, hcon, hval⟩ := period_bucket_dissect dailyKeyf periodMerge periodNew
    periodMerge_date (fun k r => rfl) _ (sortByTimestamp data) () ha'
  refine ⟨c, cs, ?_, hval⟩
  unfold periodContributors
  rw [← contribKeyed_stateless dailyKeyOf (sortByTimestamp data) () a.date]
  exact hcon

theorem weekday_bucket_dissect {data : List MarketData} {a : PeriodAgg}
    (ha : a ∈ (aggregate_period data).2.2.1) :
    ∃ c cs, periodContributors weekdayKeyOf data a.date = c :: cs ∧
      a = periodFinalize (cs.foldl (fun v r => periodMerge r v) (periodNew a.date c)) := by
  have ha' : a ∈ ((((sortByTimestamp data).foldl
      (keyedStep weekdayKeyf periodMerge periodNew) ((), [])).2.map
      fun p => periodFinalize p.2).insertionSort
      fun a b : PeriodAgg => weekdaySortLe a b = true) := by
    have : (aggregate_period data).2.2.1
        = ((((sortByTimestamp data).foldl processBar initPeriodState).weekday_map.map
          fun p => periodFinalize p.2).insertionSort
          fun a b : PeriodAgg => weekdaySortLe a b = true) := rfl
    rw [this, foldl_processBar_weekday] at ha
    exact ha
  obtain ⟨c, cs, hcon, hval⟩ := period_bucket_dissect weekdayKeyf periodMerge periodNew
    periodMerge_date (fun k r => rfl) _ (sortByTimestamp data) () ha'
  refine ⟨c, cs, ?_, hval⟩
  unfold periodContributors
  rw [← contribKeyed_stateless weekdayKeyOf (sortByTimestamp data) () a.date]
  exact hcon

theorem monthly_bucket_dissect {data : List MarketData} {a : PeriodAgg}
    (ha : a ∈ (aggregate_period data).2.2.2) :
    ∃ c cs, periodContributors monthlyKeyOf data a.date = c :: cs ∧
      a = periodFinalize (cs.foldl (fun v r => periodMerge r v) (periodNew a.date c)) := by
  have ha' : a ∈ ((((sortByTimestamp data).foldl
      (keyedStep monthlyKeyf periodMerge periodNew) ((), [])).2.map
      fun p => periodFinalize p.2).insertionSort
      fun a b : PeriodAgg => strLe a.date b.date = true) := by
    have : (aggregate_period data).2.2.2
        = ((((sortByTimestamp data).foldl processBar initPeriodState).monthly.map
          fun p => periodFinalize p.2).insertionSort
          fun a b : PeriodAgg => strLe a.date b.date = true) := rfl
    rw [this, foldl_processBar_monthly] at ha
    exact ha
  obtain ⟨c, cs, hcon, hval⟩ := period_bucket_dissect monthlyKeyf periodMerge periodNew
    periodMerge_date (fun k r => rfl) _ (sortByTimestamp data) () ha'
  refine ⟨c, cs, ?_, hval⟩
  unfold periodContributors
  rw [← contribKeyed_stateless monthlyKeyOf (sortByTimestamp data) () a.date]
  exact hcon

theorem weekly_bucket_dissect {data : List MarketData} {a : PeriodAgg}
    (ha : a ∈ (aggregate_period data).2.1) :
    ∃ c cs, weeklyContributors data a.date = c :: cs ∧
      a = periodFinalize (cs.foldl (fun v r => weeklyMergeOf r v) (weeklyNew a.date c)) := by
  have ha' : a ∈ ((((sortByTimestamp data).foldl
      (keyedStep weeklyKeyf weeklyMergeOf weeklyNew) (initWeekKeyState, [])).2.map
      fun p => periodFinalize p.2).insertionSort
      fun a b : PeriodAgg => strLe a.date b.date = true) := by
    have h0 : (aggregate_period data).2.1
        = ((((sortByTimestamp data).foldl processBar initPeriodState).weekly.map
          fun p => periodFinalize p.2).insertionSort
          fun a b : PeriodAgg => strLe a.date b.date = true) := rfl
    have h1 := foldl_processBar_weekly (sortByTimestamp data) initPeriodState
    have h2 : ((sortByTimestamp data).foldl processBar initPeriodState).weekly
        = ((sortByTimestamp data).foldl
            (keyedStep weeklyKeyf weeklyMergeOf weeklyNew) (initWeekKeyState, [])).2 :=
      congrArg Prod.snd h1
    rw [h0, h2] at ha
    exact ha
  obtain ⟨c, cs, hcon, hval⟩ := period_bucket_dissect weeklyKeyf weeklyMergeOf weeklyNew
    (fun r v => weeklyMerge_date r (dayStrOf r) v) (fun k r => rfl) _
    (sortByTimestamp data) initWeekKeyState ha'
  exact ⟨c, cs, hcon, hval⟩

/-- C2: the bar `{open:10, high:12, low:9.5, close:11.5}` under the default
thresholds (doji 0.1, long 1.5, short 0.5, upperVsLower 2.0, eps 1e-9)
classifies as Mild Bullish: its body ratio exceeds the doji threshold, the
long-body and wick-domination tests both fail, and close > open selects the
bullish mild variant. -/
theorem C2_mild_bullish_scenario :
    pattern_from_ohlc 10 12 (19/2) (23/2)
      DEFAULT_DOJI_BODY_RATIO DEFAULT_BODY_WICK_RATIO_LONG
      DEFAULT_BODY_WICK_RATIO_SHORT DEFAULT_UPPER_VS_LOWER_RATIO DEFAULT_EPS
      = "Mild Bullish".data ∧
    |(23:ℚ)/2 - 10| / (max (12 - (19:ℚ)/2) 0 + DEFAULT_EPS) > DEFAULT_DOJI_BODY_RATIO ∧
    |(23:ℚ)/2 - 10| / ((12 - 23/2) + (10 - (19:ℚ)/2) + DEFAULT_EPS)
      < DEFAULT_BODY_WICK_RATIO_LONG ∧
    |(23:ℚ)/2 - 10| / ((12 - 23/2) + (10 - (19:ℚ)/2) + DEFAULT_EPS)
      > DEFAULT_BODY_WICK_RATIO_SHORT ∧
    (23:ℚ)/2 > 10 := by
  refine ⟨?_, ?_, ?_, ?_, by norm_num⟩ <;>
    norm_num [pattern_from_ohlc, DEFAULT_DOJI_BODY_RATIO, DEFAULT_BODY_WICK_RATIO_LONG,
      DEFAULT_BODY_WICK_RATIO_SHORT, DEFAULT_UPPER_VS_LOWER_RATIO, DEFAULT_EPS,
      abs_of_pos, abs_of_nonneg]

/-- C3 counterexample: the degenerate-range bar with all四 prices equal to 10
has `high - low = 0 < eps`, yet the classifier returns Doji/SpinningTop, not
Unknown — there is no range-degeneracy branch in `pattern_from_ohlc`. -/
theorem C3_counterexample :
    (10:ℚ) - 10 < DEFAULT_EPS ∧
    pattern_from_ohlc 10 10 10 10
      DEFAULT_DOJI_BODY_RATIO DEFAULT_BODY_WICK_RATIO_LONG
      DEFAULT_BODY_WICK_RATIO_SHORT DEFAULT_UPPER_VS_LOWER_RATIO DEFAULT_EPS
      = "Doji/SpinningTop".data ∧
    pattern_from_ohlc 10 10 10 10
      DEFAULT_DOJI_BODY_RATIO DEFAULT_BODY_WICK_RATIO_LONG
      DEFAULT_BODY_WICK_RATIO_SHORT DEFAULT_UPPER_VS_LOWER_RATIO DEFAULT_EPS
      ≠ "Unknown".data := by
  have h : pattern_from_ohlc 10 10 10 10
      DEFAULT_DOJI_BODY_RATIO DEFAULT_BODY_WICK_RATIO_LONG
      DEFAULT_BODY_WICK_RATIO_SHORT DEFAULT_UPPER_VS_LOWER_RATIO DEFAULT_EPS
      = "Doji/SpinningTop".data := by
    norm_num [pattern_from_ohlc, DEFAULT_DOJI_BODY_RATIO, DEFAULT_EPS]
  refine ⟨by norm_num [DEFAULT_EPS], h, ?_⟩
  rw [h]
  decide

/-- The label tree of `pattern_from_ohlc`, abstracted over its eight Boolean
tests: no leaf is the string `Unknown`. -/
theorem pattern_ite_ne (b1 b2 b3 b4 b5 b6 b7 b8 : Bool) :
    (if b1 then "Doji/SpinningTop".data
     else if b2 then
       if b4 then "Bullish Long Body".data
       else if b5 then "Bearish Long Body".data
       else "Neutral Long Body".data
     else if b3 then
       if b6 then "Long Upper Wick".data
       else if b7 then "Long Lower Wick".data
       else if b8 then "Long Both Wicks / SpinningTop".data
       else "Long Wicks (unspecified)".data
     else
       if b4 then "Mild Bullish".data
       else if b5 then "Mild Bearish".data
       else "Neutral".data) ≠ "Unknown".data := by
  cases b1 <;> cases b2 <;> cases b3 <;> cases b4 <;> cases b5 <;>
    cases b6 <;> cases b7 <;> cases b8 <;> decide

/-- C3 amended: the classifier has no Unknown outcome at all; on a
degenerate-range bar (`high - low < eps`) with `close = open` it returns
Doji/SpinningTop under the default thresholds. -/
theorem C3_degenerate_range (o h l c : ℚ)
    (hdeg : h - l < DEFAULT_EPS) (hoc : c = o) :
    (∀ o' h' l' c' dbr bwl bws uvl eps : ℚ,
      pattern_from_ohlc o' h' l' c' dbr bwl bws uvl eps ≠ "Unknown".data) ∧
    pattern_from_ohlc o h l c
      DEFAULT_DOJI_BODY_RATIO DEFAULT_BODY_WICK_RATIO_LONG
      DEFAULT_BODY_WICK_RATIO_SHORT DEFAULT_UPPER_VS_LOWER_RATIO DEFAULT_EPS
      = "Doji/SpinningTop".data := by
  constructor
  · intro o' h' l' c' dbr bwl bws uvl eps
    unfold pattern_from_ohlc
    exact pattern_ite_ne _ _ _ _ _ _ _ _
  · have h0 : |c - o| = 0 := by rw [hoc, sub_self, abs_zero]
    have hcond : decide (|c - o| / (max (h - l) 0 + DEFAULT_EPS)
        ≤ DEFAULT_DOJI_BODY_RATIO) = true := by
      apply decide_eq_true
      rw [h0, zero_div]
      norm_num [ DEFAULT_DOJI_BODY_RATIO]
    unfold pattern_from_ohlc
    simp [hcond]

theorem c3aux_deg : (10:ℚ) - 10 < DEFAULT_EPS := by norm_num [DEFAULT_EPS]

/-- Witness for C3: the amended statement applied at the all-10 bar. -/
theorem C3_degenerate_range_witness :
    ((10:ℚ) - 10 < DEFAULT_EPS ∧ (10:ℚ) = 10) ∧
    ((∀ o' h' l' c' dbr bwl bws uvl eps : ℚ,
        pattern_from_ohlc o' h' l' c' dbr bwl bws uvl eps ≠ "Unknown".data) ∧
      pattern_from_ohlc 10 10 10 10
        DEFAULT_DOJI_BODY_RATIO DEFAULT_BODY_WICK_RATIO_LONG
        DEFAULT_BODY_WICK_RATIO_SHORT DEFAULT_UPPER_VS_LOWER_RATIO DEFAULT_EPS
        = "Doji/SpinningTop".data) :=
  ⟨⟨c3aux_deg, rfl⟩, C3_degenerate_range 10 10 10 10 c3aux_deg rfl⟩

/-- C4: `aggregate_sessions` is not order-independent.  Two bars of the same
date and session fed in the two possible orders produce the same single
bucket key but different `close` values — `close` is overwritten by the
last-*processed* bar, and the sessions fold never sorts its input.  (Both
orders shown; the two bars carry distinct closes.) -/
theorem C4_sessions_order_dependent :
    ((aggregate_sessions [c4bar1, c4bar2]).map fun a => a.close) = [c4bar2.close] ∧
    ((aggregate_sessions [c4bar2, c4bar1]).map fun a => a.close) = [c4bar1.close] ∧
    c4bar1.close ≠ c4bar2.close ∧
    ((aggregate_sessions [c4bar1, c4bar2]).map fun a => (a.date, a.session))
      = [("2023-03-27".data, Session.LN)] ∧
    ((aggregate_sessions [c4bar2, c4bar1]).map fun a => (a.date, a.session))
      = [("2023-03-27".data, Session.LN)] := by
  refine ⟨rfl, rfl, ?_, by decide, by decide⟩
  norm_num [c4bar1, c4bar2]

/-- C5: the `(date, session)` key of `aggregate_sessions` takes the raw text
before the first `'T'` without any normalization: `2023-03-27T09:00:00` and
`2023.03.27 10:00:00` fall on the same calendar day and the same session, yet
they land in two distinct buckets whose date keys are `2023-03-27` and the
whole string `2023.03.27 10:00:00`. -/
theorem C5_date_key_not_normalized :
    ((aggregate_sessions [c5bar1, c5bar2]).map fun a => (a.date, a.session))
      = [("2023-03-27".data, Session.LN),
         ("2023.03.27 10:00:00".data, Session.LN)] := by decide

/-- C6: 2023-04-01 is a Saturday; a lone Saturday bar is excluded from the
weekday buckets but *included* in the weekly bucket family (and in daily and
monthly), contradicting the spec's claim that weekends are excluded from the
weekly buckets as well. -/
theorem C6_saturday_in_weekly :
    weekdayNum ⟨2023, 4, 1, 10, 0, 0⟩ = 6 ∧
    parse_ts_to_naive satBar.timestamp = some ⟨2023, 4, 1, 10, 0, 0⟩ ∧
    ((aggregate_period [satBar]).2.2.1.map fun a => a.date) = [] ∧
    ((aggregate_period [satBar]).2.1.map fun a => a.date) = ["2023-04-W1".data] ∧
    ((aggregate_period [satBar]).2.1.map fun a => a.members)
      = [["2023-04-01".data]] ∧
    ((aggregate_period [satBar]).1.map fun a => a.date) = ["2023-04-01".data] ∧
    ((aggregate_period [satBar]).2.2.2.map fun a => a.date) = ["2023-04".data] := by
  decide

/-- C8: `Session::from_hour` realizes exactly the documented partition of the
hours 0–23: 1–7 Asian, 8–14 London, 15–18 NY-AM, 19–20 NY-Lunch, 21–23 NY-PM,
and only hour 0 maps to Unknown — so the five named ranges are pairwise
disjoint and jointly cover 1–23. -/
theorem C8_session_partition (hour : Nat) (hh : hour ≤ 23) :
    (Session.from_hour hour = Session.AS ↔ 1 ≤ hour ∧ hour ≤ 7) ∧
    (Session.from_hour hour = Session.LN ↔ 8 ≤ hour ∧ hour ≤ 14) ∧
    (Session.from_hour hour = Session.NYAM ↔ 15 ≤ hour ∧ hour ≤ 18) ∧
    (Session.from_hour hour = Session.NYL ↔ 19 ≤ hour ∧ hour ≤ 20) ∧
    (Session.from_hour hour = Session.NYPM ↔ 21 ≤ hour ∧ hour ≤ 23) ∧
    (Session.from_hour hour = Session.Unknown ↔ hour = 0) := by
  interval_cases hour <;> decide

/-- Witness for C8: the partition statement at hour 15 (NY-AM). -/
theorem C8_session_partition_witness :
    (15 : Nat) ≤ 23 ∧
    ((Session.from_hour 15 = Session.AS ↔ 1 ≤ 15 ∧ 15 ≤ 7) ∧
     (Session.from_hour 15 = Session.LN ↔ 8 ≤ 15 ∧ 15 ≤ 14) ∧
     (Session.from_hour 15 = Session.NYAM ↔ 15 ≤ 15 ∧ 15 ≤ 18) ∧
     (Session.from_hour 15 = Session.NYL ↔ 19 ≤ 15 ∧ 15 ≤ 20) ∧
     (Session.from_hour 15 = Session.NYPM ↔ 21 ≤ 15 ∧ 15 ≤ 23) ∧
     (Session.from_hour 15 = Session.Unknown ↔ 15 = 0)) :=
  ⟨by decide, C8_session_partition 15 (by decide)⟩

/-- C10: `session_from_timestamp` is total — for every input string it
returns one of the six session codes — and an out-of-range hour token (99),
a timestamp without a time component, and a non-numeric hour token all yield
`Unknown`. -/
theorem C10_session_from_timestamp_total (ts : Str) :
    session_from_timestamp ts ∈ ["AS".data, "LN".data, "NYAM".data, "NYL".data,
      "NYPM".data, "Unknown".data] ∧
    session_from_timestamp "2023-01-01T99:00".data = "Unknown".data ∧
    session_from_timestamp "2023-01-01".data = "Unknown".data ∧
    session_from_timestamp "2023-01-01Tab:00".data = "Unknown".data := by
  refine ⟨?_, by decide, by decide, by decide⟩
  unfold session_from_timestamp
  cases Session.from_timestamp ts <;> simp [Session.as_str]

theorem periodFinalize_high (v : PeriodAgg) : (periodFinalize v).high = v.high := rfl

theorem periodFinalize_low (v : PeriodAgg) : (periodFinalize v).low = v.low := rfl

theorem periodFinalize_members (v : PeriodAgg) :
    (periodFinalize v).members
      = v.members.insertionSort fun a b => strLe a b = true := rfl

theorem sessionFinalize_high (v : SessionAgg) : (sessionFinalize v).high = v.high := rfl

theorem sessionFinalize_low (v : SessionAgg) : (sessionFinalize v).low = v.low := rfl

theorem fold_merge_high {ν : Type} (mergef : MarketData → ν → ν) (highf : ν → ℚ)
    (hm : ∀ r v, highf (mergef r v) = if r.high > highf v then r.high else highf v)
    (c : MarketData) (cs : List MarketData) (v0 : ν) (h0 : highf v0 = c.high) :
    some (highf (cs.foldl (fun v r => mergef r v) v0))
      = listMax ((c :: cs).map (·.high)) := by
  rw [foldl_merge_proj mergef highf (fun x r => if r.high > x then r.high else x) hm,
    h0, foldl_high_eq_max]
  rfl

theorem fold_merge_low {ν : Type} (mergef : MarketData → ν → ν) (lowf : ν → ℚ)
    (hm : ∀ r v, lowf (mergef r v) = if r.low < lowf v then r.low else lowf v)
    (c : MarketData) (cs : List MarketData) (v0 : ν) (h0 : lowf v0 = c.low) :
    some (lowf (cs.foldl (fun v r => mergef r v) v0))
      = listMin ((c :: cs).map (·.low)) := by
  rw [foldl_merge_proj mergef lowf (fun x r => if r.low < x then r.low else x) hm,
    h0, foldl_low_eq_min]
  rfl

/-- C9: in every bucket of `aggregate_sessions` and of all four families of
`aggregate_period`, the bucket high is exactly the maximum of its
contributing bars' highs and the bucket low exactly the minimum of their
lows. -/
theorem C9_envelope_invariant (data : List MarketData) :
    (∀ a ∈ aggregate_sessions data,
      some a.high = listMax ((sessionContributors data (a.date, a.session)).map (·.high)) ∧
      some a.low = listMin ((sessionContributors data (a.date, a.session)).map (·.low))) ∧
    (∀ a ∈ (aggregate_period data).1,
      some a.high = listMax ((periodContributors dailyKeyOf data a.date).map (·.high)) ∧
      some a.low = listMin ((periodContributors dailyKeyOf data a.date).map (·.low))) ∧
    (∀ a ∈ (aggregate_period data).2.1,
      some a.high = listMax ((weeklyContributors data a.date).map (·.high)) ∧
      some a.low = listMin ((weeklyContributors data a.date).map (·.low))) ∧
    (∀ a ∈ (aggregate_period data).2.2.1,
      some a.high = listMax ((periodContributors weekdayKeyOf data a.date).map (·.high)) ∧
      some a.low = listMin ((periodContributors weekdayKeyOf data a.date).map (·.low))) ∧
    (∀ a ∈ (aggregate_period data).2.2.2,
      some a.high = listMax ((periodContributors monthlyKeyOf data a.date).map (·.high)) ∧
      some a.low = listMin ((periodContributors monthlyKeyOf data a.date).map (·.low))) := by
  refine ⟨?_, ?_, ?_, ?_, ?_⟩
  · intro a ha
    obtain ⟨c, cs, hcon, hval⟩ := session_bucket_dissect ha
    rw [hcon]
    constructor
    · conv_lhs => rw [hval, sessionFinalize_high]
      exact fold_merge_high sessionMerge (·.high) sessionMerge_high c cs _ rfl
    · conv_lhs => rw [hval, sessionFinalize_low]
      exact fold_merge_low sessionMerge (·.low) sessionMerge_low c cs _ rfl
  · intro a ha
    obtain ⟨c, cs, hcon, hval⟩ := daily_bucket_dissect ha
    rw [hcon]
    constructor
    · conv_lhs => rw [hval, periodFinalize_high]
      exact fold_merge_high periodMerge (·.high) periodMerge_high c cs _ rfl
    · conv_lhs => rw [hval, periodFinalize_low]
      exact fold_merge_low periodMerge (·.low) periodMerge_low c cs _ rfl
  · intro a ha
    obtain ⟨c, cs, hcon, hval⟩ := weekly_bucket_dissect ha
    rw [hcon]
    constructor
    · conv_lhs => rw [hval, periodFinalize_high]
      exact fold_merge_high weeklyMergeOf (·.high)
        (fun r v => weeklyMerge_high r (dayStrOf r) v) c cs _ rfl
    · conv_lhs => rw [hval, periodFinalize_low]
      exact fold_merge_low weeklyMergeOf (·.low)
        (fun r v => weeklyMerge_low r (dayStrOf r) v) c cs _ rfl
  · intro a ha
    obtain ⟨c, cs, hcon, hval⟩ := weekday_bucket_dissect ha
    rw [hcon]
    constructor
    · conv_lhs => rw [hval, periodFinalize_high]
      exact fold_merge_high periodMerge (·.high) periodMerge_high c cs _ rfl
    · conv_lhs => rw [hval, periodFinalize_low]
      exact fold_merge_low periodMerge (·.low) periodMerge_low c cs _ rfl
  · intro a ha
    obtain ⟨c, cs, hcon, hval⟩ := monthly_bucket_dissect ha
    rw [hcon]
    constructor
    · conv_lhs => rw [hval, periodFinalize_high]
      exact fold_merge_high periodMerge (·.high) periodMerge_high c cs _ rfl
    · conv_lhs => rw [hval, periodFinalize_low]
      exact fold_merge_low periodMerge (·.low) periodMerge_low c cs _ rfl

theorem w9mem : sessionFinalize (sessionInit "2023-03-27".data Session.LN w9bar)
    ∈ aggregate_sessions [w9bar] := by
  have h : aggregate_sessions [w9bar]
      = [sessionFinalize (sessionInit "2023-03-27".data Session.LN w9bar)] := rfl
  rw [h]
  exact List.mem_singleton_self _

/-- Witness for C9: the session-bucket envelope equality at a one-bar input. -/
theorem C9_envelope_invariant_witness :
    some (sessionFinalize (sessionInit "2023-03-27".data Session.LN w9bar)).high
      = listMax ((sessionContributors [w9bar]
          ((sessionFinalize (sessionInit "2023-03-27".data Session.LN w9bar)).date,
           (sessionFinalize (sessionInit "2023-03-27".data Session.LN w9bar)).session)).map
          (·.high)) ∧
    some (sessionFinalize (sessionInit "2023-03-27".data Session.LN w9bar)).low
      = listMin ((sessionContributors [w9bar]
          ((sessionFinalize (sessionInit "2023-03-27".data Session.LN w9bar)).date,
           (sessionFinalize (sessionInit "2023-03-27".data Session.LN w9bar)).session)).map
          (·.low)) :=
  (C9_envelope_invariant [w9bar]).1 _ w9mem

theorem fold_weekly_members (c : MarketData) (cs : List MarketData) (k : Str) :
    (cs.foldl (fun v r => weeklyMergeOf r v) (weeklyNew k c)).members
      = membersOf (c :: cs) := by
  have hm : ∀ (r : MarketData) (v : PeriodAgg), (weeklyMergeOf r v).members
      = (fun ms (r : MarketData) =>
          if dayStrOf r ∈ ms then ms else ms ++ [dayStrOf r]) v.members r :=
    fun r v => weeklyMerge_members r (dayStrOf r) v
  rw [foldl_merge_proj weeklyMergeOf (·.members)
    (fun ms (r : MarketData) => if dayStrOf r ∈ ms then ms else ms ++ [dayStrOf r]) hm]
  unfold membersOf
  simp [List.foldl_cons, weeklyNew, periodInit]

theorem fold_periodMerge_members (c : MarketData) (cs : List MarketData) (k : Str) :
    (cs.foldl (fun v r => periodMerge r v) (periodNew k c)).members = [] := by
  rw [foldl_merge_proj periodMerge (·.members) (fun A r => A)
    (fun r v => periodMerge_members r v), foldl_const]
  rfl

/-- C7 counterexample: for a single Saturday bar, the daily bucket exists at
date `2023-04-01` and has exactly one contributing bar (whose calendar date
is that same day), yet its `members` list is empty — only the weekly family
records member dates. -/
theorem C7_counterexample :
    ((aggregate_period [satBar]).1.map fun a => a.date) = ["2023-04-01".data] ∧
    ((aggregate_period [satBar]).1.map fun a => a.members) = [[]] ∧
    ((periodContributors dailyKeyOf [satBar] "2023-04-01".data).map
      fun r => r.timestamp) = ["2023-04-01T10:00:00".data] ∧
    dayStrOf satBar = "2023-04-01".data := by decide

/-- C7 amended: only the weekly buckets carry member dates — each weekly
bucket's `members` is the sorted, de-duplicated list of the calendar-date
strings of its contributing bars; in the daily, weekday and monthly families
`members` is always empty. -/
theorem C7_members_per_family (data : List MarketData) :
    (∀ a ∈ (aggregate_period data).2.1,
      a.members = (membersOf (weeklyContributors data a.date)).insertionSort
        fun x y => strLe x y = true) ∧
    (∀ a ∈ (aggregate_period data).1, a.members = []) ∧
    (∀ a ∈ (aggregate_period data).2.2.1, a.members = []) ∧
    (∀ a ∈ (aggregate_period data).2.2.2, a.members = []) := by
  refine ⟨?_, ?_, ?_, ?_⟩
  · intro a ha
    obtain ⟨c, cs, hcon, hval⟩ := weekly_bucket_dissect ha
    rw [hcon]
    conv_lhs => rw [hval, periodFinalize_members, fold_weekly_members]
  · intro a ha
    obtain ⟨c, cs, hcon, hval⟩ := daily_bucket_dissect ha
    conv_lhs => rw [hval, periodFinalize_members, fold_periodMerge_members]
    rfl
  · intro a ha
    obtain ⟨c, cs, hcon, hval⟩ := weekday_bucket_dissect ha
    conv_lhs => rw [hval, periodFinalize_members, fold_periodMerge_members]
    rfl
  · intro a ha
    obtain ⟨c, cs, hcon, hval⟩ := monthly_bucket_dissect ha
    conv_lhs => rw [hval, periodFinalize_members, fold_periodMerge_members]
    rfl

theorem w7mem : periodFinalize (weeklyNew "2023-04-W1".data satBar)
    ∈ (aggregate_period [satBar]).2.1 := by
  have h : (aggregate_period [satBar]).2.1
      = [periodFinalize (weeklyNew "2023-04-W1".data satBar)] := rfl
  rw [h]
  exact List.mem_singleton_self _

/-- Witness for C7 amended: the weekly-members equality at a one-bar input. -/
theorem C7_members_per_family_witness :
    (periodFinalize (weeklyNew "2023-04-W1".data satBar)).members
      = (membersOf (weeklyContributors [satBar]
          (periodFinalize (weeklyNew "2023-04-W1".data satBar)).date)).insertionSort
        fun x y => strLe x y = true :=
  (C7_members_per_family [satBar]).1 _ w7mem

/-! ## The timestamp-string order is a total preorder -/

theorem strLe_refl (a : Str) : strLe a a = true := by
  induction a with
  | nil => rfl
  | cons x xs ih => simp [strLe, lt_irrefl, ih]

theorem strLe_total (a : Str) : ∀ b : Str, strLe a b = true ∨ strLe b a = true := by
  induction a with
  | nil => intro b; left; rfl
  | cons x xs ih =>
    intro b
    cases b with
    | nil => right; rfl
    | cons y ys =>
      by_cases hxy : x < y
      · left; simp [strLe, hxy]
      · by_cases hyx : y < x
        · right; simp [strLe, hyx]
        · rcases ih ys with h | h
          · left; simp [strLe, hxy, hyx, h]
          · right; simp [strLe, hyx, hxy, h]

theorem strLe_trans (a : Str) : ∀ b c : Str,
    strLe a b = true → strLe b c = true → strLe a c = true := by
  induction a with
  | nil => intro b c _ _; rfl
  | cons x xs ih =>
    intro b c hab hbc
    cases b with
    | nil => simp [strLe] at hab
    | cons y ys =>
      cases c with
      | nil => simp [strLe] at hbc
      | cons z zs =>
        by_cases hxy : x < y
        · by_cases hyz : y < z
          · simp [strLe, lt_trans hxy hyz]
          · by_cases hzy : z < y
            · simp [strLe, hyz, hzy] at hbc
            · have hyzeq : y = z := le_antisymm (not_lt.1 hzy) (not_lt.1 hyz)
              subst hyzeq
              simp [strLe, hxy]
        · by_cases hyx : y < x
          · simp [strLe, hxy, hyx] at hab
          · have hxyeq : x = y := le_antisymm (not_lt.1 hyx) (not_lt.1 hxy)
            subst hxyeq
            simp only [strLe, lt_irrefl, if_false] at hab
            by_cases hxz : x < z
            · simp [strLe, hxz]
            · by_cases hzx : z < x
              · simp [strLe, hxz, hzx] at hbc
              · have hxzeq : x = z := le_antisymm (not_lt.1 hzx) (not_lt.1 hxz)
                subst hxzeq
                simp only [strLe, lt_irrefl, if_false] at hbc ⊢
                exact ih ys zs hab hbc

theorem sortByTimestamp_sorted (data : List MarketData) :
    (sortByTimestamp data).Pairwise fun a b => strLe a.timestamp b.timestamp = true := by
  unfold sortByTimestamp
  haveI : IsTotal MarketData fun a b => strLe a.timestamp b.timestamp = true :=
    ⟨fun a b => strLe_total a.timestamp b.timestamp⟩
  haveI : IsTrans MarketData fun a b => strLe a.timestamp b.timestamp = true :=
    ⟨fun a b c => strLe_trans a.timestamp b.timestamp c.timestamp⟩
  exact List.sorted_insertionSort (fun a b => strLe a.timestamp b.timestamp = true) data

theorem weeklyKeyStep_locked_hit {y : Int} {w m n : Nat} {st : WeekKeyState}
    (hl1 : alookup (y, w) st.iso_week_assigned_month = some m)
    (hl2 : alookup (y, m, w) st.monthly_iso_week_index = some n)
    (ndt : NaiveDateTime) (hiso : iso_year_week ndt = (y, w)) :
    weeklyKeyStep st ndt = (formatWeekKey y m n, st) := by
  simp only [weeklyKeyStep, hiso, hl1, hl2]

theorem weeklyKeyStep_assigned_other {st : WeekKeyState} {ndt : NaiveDateTime}
    {y : Int} {w : Nat} (hne : iso_year_week ndt ≠ (y, w)) :
    alookup (y, w) (weeklyKeyStep st ndt).2.iso_week_assigned_month
      = alookup (y, w) st.iso_week_assigned_month := by
  simp only [weeklyKeyStep]
  cases h1 : alookup (iso_year_week ndt) st.iso_week_assigned_month with
  | some m' =>
    cases h2 : alookup ((iso_year_week ndt).1, m', (iso_year_week ndt).2)
        st.monthly_iso_week_index <;> simp [h1, h2]
  | none =>
    cases h2 : alookup ((iso_year_week ndt).1, ndt.month, (iso_year_week ndt).2)
        st.monthly_iso_week_index <;> simp [h1, h2, alookup, hne]

theorem weeklyKeyStep_idx_other {st : WeekKeyState} {ndt : NaiveDateTime}
    {y : Int} {w : Nat} (hne : iso_year_week ndt ≠ (y, w)) (m : Nat) :
    alookup (y, m, w) (weeklyKeyStep st ndt).2.monthly_iso_week_index
      = alookup (y, m, w) st.monthly_iso_week_index := by
  have hkne : ∀ om : Nat, ¬ ((iso_year_week ndt).1, om, (iso_year_week ndt).2)
      = ((y, m, w) : Int × Nat × Nat) := by
    intro om he
    apply hne
    have h1 : (iso_year_week ndt).1 = y := congrArg Prod.fst he
    have h2 : (iso_year_week ndt).2 = w := congrArg (fun p : Int × Nat × Nat => p.2.2) he
    exact Prod.ext h1 h2
  simp only [weeklyKeyStep]
  cases h1 : alookup (iso_year_week ndt) st.iso_week_assigned_month with
  | some m' =>
    cases h2 : alookup ((iso_year_week ndt).1, m', (iso_year_week ndt).2)
        st.monthly_iso_week_index <;> simp [h1, h2, alookup, hkne m']
  | none =>
    cases h2 : alookup ((iso_year_week ndt).1, ndt.month, (iso_year_week ndt).2)
        st.monthly_iso_week_index <;> simp [h1, h2, alookup, hkne ndt.month]

theorem weeklyKeyStep_assigned_self (st : WeekKeyState) (ndt : NaiveDateTime) :
    ∃ mm, alookup (iso_year_week ndt)
      (weeklyKeyStep st ndt).2.iso_week_assigned_month = some mm := by
  simp only [weeklyKeyStep]
  cases h1 : alookup (iso_year_week ndt) st.iso_week_assigned_month with
  | some m' =>
    refine ⟨m', ?_⟩
    cases h2 : alookup ((iso_year_week ndt).1, m', (iso_year_week ndt).2)
        st.monthly_iso_week_index <;> simp [h1, h2]
  | none =>
    refine ⟨ndt.month, ?_⟩
    cases h2 : alookup ((iso_year_week ndt).1, ndt.month, (iso_year_week ndt).2)
        st.monthly_iso_week_index <;> simp [h1, h2, alookup]

theorem weeklyKeyStep_inv {st : WeekKeyState} (hinv : wkInv st) (ndt : NaiveDateTime) :
    wkInv (weeklyKeyStep st ndt).2 := by
  intro y w hnone m
  by_cases hyw : iso_year_week ndt = (y, w)
  · exfalso
    obtain ⟨mm, hmm⟩ := weeklyKeyStep_assigned_self st ndt
    rw [hyw, hnone] at hmm
    cases hmm
  · rw [weeklyKeyStep_idx_other hyw m]
    rw [weeklyKeyStep_assigned_other hyw] at hnone
    exact hinv y w hnone m

theorem weeklyKeyStep_first {st : WeekKeyState} (hinv : wkInv st) {y : Int} {w : Nat}
    (hnone : alookup (y, w) st.iso_week_assigned_month = none)
    (ndt : NaiveDateTime) (hiso : iso_year_week ndt = (y, w)) :
    ∃ n, (weeklyKeyStep st ndt).1 = formatWeekKey y ndt.month n ∧
      wkLocked y w ndt.month n (weeklyKeyStep st ndt).2 := by
  have hidx : alookup (y, ndt.month, w) st.monthly_iso_week_index = none :=
    hinv y w hnone ndt.month
  refine ⟨(alookup (y, ndt.month) st.monthly_week_counter).getD 0 + 1, ?_, ?_, ?_⟩ <;>
    simp [weeklyKeyStep, hiso, hnone, hidx, wkLocked, alookup]

theorem keyTrace_locked {y : Int} {w m n : Nat} :
    ∀ (l : List MarketData) (st : WeekKeyState), wkLocked y w m n st →
      ∀ p ∈ keyTrace weeklyKeyf st l, isoOf p.2 = some (y, w) →
        p.1 = some (formatWeekKey y m n) := by
  intro l
  induction l with
  | nil => intro st _ p hp; cases hp
  | cons r rest ih =>
    intro st hl p hp hiso
    simp only [keyTrace] at hp
    rcases List.mem_cons.1 hp with rfl | hp'
    · show (weeklyKeyf st r).1 = _
      unfold weeklyKeyf
      cases hps : parse_ts_to_naive r.timestamp with
      | none => rw [isoOf, hps] at hiso; cases hiso
      | some ndt =>
        have hiso' : iso_year_week ndt = (y, w) := by
          rw [isoOf, hps] at hiso
          exact Option.some.inj hiso
        simp only [hps]
        rw [weeklyKeyStep_locked_hit hl.1 hl.2 ndt hiso']
    · refine ih (weeklyKeyf st r).2 ?_ p hp' hiso
      unfold weeklyKeyf
      cases hps : parse_ts_to_naive r.timestamp with
      | none => simpa using hl
      | some ndt =>
        simp only [hps]
        by_cases hyw : iso_year_week ndt = (y, w)
        · rw [weeklyKeyStep_locked_hit hl.1 hl.2 ndt hyw]
          exact hl
        · exact ⟨by rw [weeklyKeyStep_assigned_other hyw]; exact hl.1,
                 by rw [weeklyKeyStep_idx_other hyw]; exact hl.2⟩

theorem keyTrace_first {y : Int} {w : Nat} :
    ∀ (l : List MarketData) (st : WeekKeyState), wkInv st →
      alookup (y, w) st.iso_week_assigned_month = none →
      ∀ c cs, (l.filter fun r => decide (isoOf r = some (y, w))) = c :: cs →
      ∃ n mth, monthOf c = some mth ∧
        ∀ p ∈ keyTrace weeklyKeyf st l, isoOf p.2 = some (y, w) →
          p.1 = some (formatWeekKey y mth n) := by
  intro l
  induction l with
  | nil => intro st _ _ c cs h; cases h
  | cons r rest ih =>
    intro st hinv hnone c cs hfil
    by_cases hr : isoOf r = some (y, w)
    · simp only [List.filter_cons] at hfil
      rw [if_pos (decide_eq_true hr)] at hfil
      have hrc : r = c := (List.cons.injEq _ _ _ _ ▸ hfil).1
      subst hrc
      cases hps : parse_ts_to_naive r.timestamp with
      | none => rw [isoOf, hps] at hr; cases hr
      | some ndt =>
        have hiso' : iso_year_week ndt = (y, w) := by
          rw [isoOf, hps] at hr
          exact Option.some.inj hr
        obtain ⟨n, hkey, hlock⟩ := weeklyKeyStep_first hinv hnone ndt hiso'
        refine ⟨n, ndt.month, by rw [monthOf, hps]; rfl, ?_⟩
        intro p hp hpiso
        simp only [keyTrace] at hp
        rcases List.mem_cons.1 hp with rfl | hp'
        · show (weeklyKeyf st r).1 = _
          unfold weeklyKeyf
          simp only [hps]
          rw [hkey]
        · have hst : (weeklyKeyf st r).2 = (weeklyKeyStep st ndt).2 := by
            unfold weeklyKeyf
            simp only [hps]
          rw [hst] at hp'
          exact keyTrace_locked rest _ hlock p hp' hpiso
    · simp only [List.filter_cons] at hfil
      rw [if_neg (by simpa using hr)] at hfil
      have hinv' : wkInv (weeklyKeyf st r).2 := by
        unfold weeklyKeyf
        cases hps : parse_ts_to_naive r.timestamp with
        | none => simpa using hinv
        | some ndt =>
          simp only [hps]
          exact weeklyKeyStep_inv hinv ndt
      have hnone' : alookup (y, w) (weeklyKeyf st r).2.iso_week_assigned_month = none := by
        unfold weeklyKeyf
        cases hps : parse_ts_to_naive r.timestamp with
        | none => simpa using hnone
        | some ndt =>
          simp only [hps]
          have hyw : iso_year_week ndt ≠ (y, w) := by
            intro he
            apply hr
            rw [isoOf, hps]
            simp [he]
          rw [weeklyKeyStep_assigned_other hyw]
          exact hnone
      obtain ⟨n, mth, hm, htr⟩ := ih (weeklyKeyf st r).2 hinv' hnone' c cs hfil
      refine ⟨n, mth, hm, ?_⟩
      intro p hp hpiso
      simp only [keyTrace] at hp
      rcases List.mem_cons.1 hp with rfl | hp'
      · exact absurd hpiso hr
      · exact htr p hp' hpiso

theorem keyTrace_mem {κ σ : Type} (keyf : σ → MarketData → Option κ × σ) :
    ∀ (l : List MarketData) (s : σ) (r : MarketData), r ∈ l →
      ∃ ko, (ko, r) ∈ keyTrace keyf s l := by
  intro l
  induction l with
  | nil => intro s r hr; cases hr
  | cons x rest ih =>
    intro s r hr
    rcases List.mem_cons.1 hr with rfl | hr'
    · exact ⟨(keyf s r).1, List.mem_cons_self _ _⟩
    · obtain ⟨ko, hko⟩ := ih (keyf s x).2 r hr'
      exact ⟨ko, List.mem_cons_of_mem _ hko⟩

theorem periodFinalize_date (v : PeriodAgg) : (periodFinalize v).date = v.date := rfl

/-- C1: weekly month-attribution stability.  For any input and any ISO week
`(y, w)` with at least one parseable bar, there are an owning month `mth` and
a month-relative index `n` such that (i) `mth` is the calendar month of the
chronologically-first bar `c` of that ISO week (first in timestamp-sorted
processing order, which is minimal by clause (iv)), (ii) every bar of the
ISO week is assigned the single weekly bucket key `"{y}-{mth}-W{n}"` by the
fold's memoized key assignment, and (iii) the weekly output contains a bucket
with exactly that key. -/
theorem C1_weekly_month_attribution (data : List MarketData) (y : Int) (w : Nat)
    (c : MarketData) (cs : List MarketData)
    (hfil : ((sortByTimestamp data).filter fun r => decide (isoOf r = some (y, w)))
      = c :: cs) :
    ∃ n mth, monthOf c = some mth ∧
      (∀ p ∈ keyTrace weeklyKeyf initWeekKeyState (sortByTimestamp data),
        isoOf p.2 = some (y, w) → p.1 = some (formatWeekKey y mth n)) ∧
      (∃ b ∈ (aggregate_period data).2.1, b.date = formatWeekKey y mth n) ∧
      (∀ r ∈ c :: cs, strLe c.timestamp r.timestamp = true) := by
  have hinv0 : wkInv initWeekKeyState := fun y w _ m => rfl
  have hnone0 : alookup (y, w) initWeekKeyState.iso_week_assigned_month = none := rfl
  obtain ⟨n, mth, hm, htr⟩ :=
    keyTrace_first (sortByTimestamp data) initWeekKeyState hinv0 hnone0 c cs hfil
  refine ⟨n, mth, hm, htr, ?_, ?_⟩
  · have hcf : c ∈ (sortByTimestamp data).filter
        fun r => decide (isoOf r = some (y, w)) := by
      rw [hfil]
      exact List.mem_cons_self _ _
    have hcmem : c ∈ sortByTimestamp data := List.mem_of_mem_filter hcf
    have hciso : isoOf c = some (y, w) := of_decide_eq_true ((List.mem_filter.1 hcf).2)
    obtain ⟨ko, hko⟩ :=
      keyTrace_mem weeklyKeyf (sortByTimestamp data) initWeekKeyState c hcmem
    have hkey : ko = some (formatWeekKey y mth n) := htr (ko, c) hko hciso
    subst hkey
    have hcontrib : c ∈ contribKeyed weeklyKeyf initWeekKeyState
        (sortByTimestamp data) (formatWeekKey y mth n) := by
      rw [contribKeyed_eq_keyTrace]
      exact List.mem_map.2 ⟨(some (formatWeekKey y mth n), c),
        List.mem_filter.2 ⟨hko, by simp⟩, rfl⟩
    have hcne : contribKeyed weeklyKeyf initWeekKeyState
        (sortByTimestamp data) (formatWeekKey y mth n) ≠ [] := by
      intro he
      rw [he] at hcontrib
      cases hcontrib
    obtain ⟨v, hv⟩ := keyedFold_exists_of_contrib weeklyKeyf weeklyMergeOf weeklyNew
      (sortByTimestamp data) initWeekKeyState _ hcne
    obtain ⟨c0, cs0, hcon0, hval0⟩ := keyedFold_mem_char weeklyKeyf weeklyMergeOf
      weeklyNew (sortByTimestamp data) initWeekKeyState _ hv
    have hdate : v.date = formatWeekKey y mth n := by
      have : ((formatWeekKey y mth n, v) : Str × PeriodAgg).2.date
          = (formatWeekKey y mth n, v).1 := by
        rw [hval0, foldl_merge_proj weeklyMergeOf (·.date) (fun A r => A)
          (fun r v => weeklyMerge_date r (dayStrOf r) v), foldl_const]
        rfl
      exact this
    refine ⟨periodFinalize v, ?_, by rw [periodFinalize_date, hdate]⟩
    have hbm : periodFinalize v ∈ ((sortByTimestamp data).foldl
        (keyedStep weeklyKeyf weeklyMergeOf weeklyNew) (initWeekKeyState, [])).2.map
        fun p => periodFinalize p.2 :=
      List.mem_map.2 ⟨_, hv, rfl⟩
    have hout : (aggregate_period data).2.1
        = ((((sortByTimestamp data).foldl
            (keyedStep weeklyKeyf weeklyMergeOf weeklyNew) (initWeekKeyState, [])).2.map
            fun p => periodFinalize p.2).insertionSort
            fun a b : PeriodAgg => strLe a.date b.date = true) := by
      have h0 : (aggregate_period data).2.1
          = ((((sortByTimestamp data).foldl processBar initPeriodState).weekly.map
            fun p => periodFinalize p.2).insertionSort
            fun a b : PeriodAgg => strLe a.date b.date = true) := rfl
      have h2 : ((sortByTimestamp data).foldl processBar initPeriodState).weekly
          = ((sortByTimestamp data).foldl
              (keyedStep weeklyKeyf weeklyMergeOf weeklyNew) (initWeekKeyState, [])).2 :=
        congrArg Prod.snd (foldl_processBar_weekly (sortByTimestamp data) initPeriodState)
      rw [h0, h2]
    rw [hout]
    exact (List.perm_insertionSort _ _).mem_iff.2 hbm
  · have hpairf : (c :: cs).Pairwise
        (fun a b => strLe a.timestamp b.timestamp = true) := by
      rw [← hfil]
      exact (sortByTimestamp_sorted data).sublist (List.filter_sublist _)
    intro r hr
    rcases List.mem_cons.1 hr with rfl | hr'
    · exact strLe_refl _
    · exact (List.pairwise_cons.1 hpairf).1 r hr'

theorem w1fil : ((sortByTimestamp [w1bar1, w1bar2]).filter
    fun r => decide (isoOf r = some ((2023 : Int), 13))) = w1bar1 :: [w1bar2] := rfl

/-- Witness for C1: the ISO week 2023-W13 straddles March and April; with a
March 31 bar and an April 1 bar, the attribution theorem applies (the owning
month is that of the chronologically-first bar). -/
theorem C1_weekly_month_attribution_witness :
    (((sortByTimestamp [w1bar1, w1bar2]).filter
        fun r => decide (isoOf r = some ((2023 : Int), 13))) = w1bar1 :: [w1bar2]) ∧
    (∃ n mth, monthOf w1bar1 = some mth ∧
      (∀ p ∈ keyTrace weeklyKeyf initWeekKeyState (sortByTimestamp [w1bar1, w1bar2]),
        isoOf p.2 = some ((2023 : Int), 13) → p.1 = some (formatWeekKey 2023 mth n)) ∧
      (∃ b ∈ (aggregate_period [w1bar1, w1bar2]).2.1,
        b.date = formatWeekKey 2023 mth n) ∧
      (∀ r ∈ w1bar1 :: [w1bar2], strLe w1bar1.timestamp r.timestamp = true)) :=
  ⟨w1fil, C1_weekly_month_attribution [w1bar1, w1bar2] 2023 13 w1bar1 [w1bar2] w1fil⟩

